import Mathlib

/-!
# constconv: the declaration scanner, the parser, the flags and the generator

A shallow embedding of `parser.go`, `result_value.go`, `preprocess` of
`main.go` and `Generate` and `format` of `generator.go` (and the parts of the
Go standard library they lean on: `strings.Split`, `ast.Inspect`, the shape of
`ast.ValueSpec` and `ast.ImportSpec`), followed by theorems about it.

Conventions of the embedding

* A Go `(T, error)` pair is kept as a pair: `inspect` gives back the `Result`
  it returns together with an optional error.
* A run-time panic (nil pointer dereference) is the value `none` of an
  `Option`.
* Pointers used as map keys (`*ast.Ident` in `types.Info.Defs`) are natural
  numbers.
* `FileRunner.multiErr` is the list of the messages appended with
  `multierr.Append`; the nil error is the empty list.
* What the program reads from outside (the outcome of `packages.Load`, the file
  system, `format.Source`, the execution of the template) is a parameter.
-/

set_option autoImplicit false

namespace Constconv

/-! ## Data model (`result_value.go`) -/

/-- The closed taxonomy `constant.Kind` of `go/constant`. -/
inductive Kind
  | Unknown
  | Bool
  | String
  | Int
  | Float
  | Complex
deriving DecidableEq, Repr

/-- The struct `Value` of `result_value.go`, with the four fields that
`genDecl` sets. (`value.go` declares a `Value` with three further fields, which
nothing in `parser.go` sets.) -/
structure Value where
  Name : String
  Str : String
  ExactStr : String
  Kind : Kind
deriving DecidableEq, Repr

/-- The struct `Import` of `result_value.go`. -/
structure Import where
  Name : String
  Path : String
  Comment : String
  Doc : String
deriving DecidableEq, Repr

/-- The struct `Result` of `result_value.go`. -/
structure Result where
  PkgName : String
  TypeName : String
  RepTypeName : String
  Values : List Value
  Imports : List Import
deriving DecidableEq, Repr

/-- The zero value of `Result`: what the named result `result` of `inspect`
holds before line 176 assigns it. -/
def Result.zero : Result :=
  { PkgName := "", TypeName := "", RepTypeName := "", Values := [], Imports := [] }

/-! ## The syntax trees and the symbol table, as far as the scanner reads them -/

/-- An `*ast.Ident`: `ptr` is the identity of the node (the key of
`types.Info.Defs`), `Name` its spelling. -/
structure Ident where
  ptr : Nat
  Name : String
deriving DecidableEq, Repr

/-- An `ast.Expr`, as far as `genDecl` tells expressions apart: it only asks
whether the type expression of a spec is an `*ast.Ident`. -/
inductive Expr
  | ident (Name : String)
  | selector (X : String) (Sel : String)
  | basicLit (Value : String)
  | other
deriving DecidableEq, Repr

/-- An `*ast.ValueSpec`: `Names`, the optional `Type` (here `Type_`, nil is
`none`) and the initializer expressions `Values`. -/
structure ValueSpec where
  Names : List Ident
  Type_ : Option Expr
  Values : List Expr
deriving DecidableEq, Repr

/-- An `ast.Node` as `genDecl` sees it: either an `*ast.GenDecl` whose `Tok`
is `token.CONST` (all its specs are `*ast.ValueSpec`), or any other node with
its non-nil children in the order `ast.Walk` visits them. The specs of a const
declaration are not nodes of the model: `genDecl` returns false on a const
declaration, so they are never walked. -/
inductive Node
  | constDecl (Specs : List ValueSpec)
  | other (children : List Node)

/-- An `*ast.CommentGroup`, by its text; the nil group is `none`. -/
abbrev CommentGroup := Option String

/-- The method `(*ast.CommentGroup).Text`, which accepts a nil receiver and
then returns the empty string. -/
def CommentGroup.Text : CommentGroup → String
  | none => ""
  | some t => t

/-- An `*ast.ImportSpec`. `Name` is the local package name, or nil (`none`)
when the import is declared without one; `Path` is the `Value` of the path
literal. -/
structure ImportSpec where
  Doc : CommentGroup
  Name : Option Ident
  Path : String
  Comment : CommentGroup
deriving DecidableEq, Repr

/-- An `*ast.File`: the import specs collected in `Imports` and the top-level
declarations `Decls`. The other children of the file node (its doc comment and
the identifier of the package clause) are leaves on which `genDecl` returns
true without any effect. -/
structure AstFile where
  Imports : List ImportSpec
  Decls : List Node

/-- A `*types.Const` as the scanner reads it: the three observations
`Val().String()`, `Val().ExactString()` and `Val().Kind()`. -/
structure Const where
  Str : String
  ExactStr : String
  Kind : Kind
deriving DecidableEq, Repr

/-- The map `types.Info.Defs`, restricted to the identifiers that define
constants: a finite map from the identity of an identifier to its object. -/
abbrev Defs := List (Nat × Const)

/-! ## `parser.go` -/

/-- The `pkg` pointer of a `File`. The files of the primary package point back
to the parser's own `p.pkg` (`primary`); a file of a directly imported package
points to a record of its own that holds a name and a symbol table, with
`imports` and `files` nil. -/
inductive PkgRef
  | primary
  | imported (name : String) (defs : Defs)
deriving DecidableEq, Repr

/-- The struct `File`. The field `runner` is not a field of the model: `inspect`
stores the same runner in every file it scans, so the runner is passed along
as state. -/
structure File where
  pkg : PkgRef
  file : Option AstFile

/-- The struct `Package` for the parser's `p.pkg`. -/
structure Package where
  name : String
  defs : Defs
  imports : List Import
  files : List File

/-- The expression `file.pkg.name`, read through the pointer. -/
def PkgRef.name (p : Package) : PkgRef → String
  | .primary => p.name
  | .imported name _ => name

/-- The expression `f.pkg.defs`, read through the pointer. -/
def PkgRef.defs (p : Package) : PkgRef → Defs
  | .primary => p.defs
  | .imported _ defs => defs

/-- The struct `FileRunner`. -/
structure FileRunner where
  pkgName : String
  typeName : String
  repTypeName : String
  values : List Value
  multiErr : List String
deriving DecidableEq, Repr

/-- The method `FileRunner.ResetForLoop`. -/
def FileRunner.ResetForLoop (fr : FileRunner) : FileRunner :=
  { fr with values := [], multiErr := [] }

/-- The method `FileRunner.HasError`. -/
def FileRunner.HasError (fr : FileRunner) : Bool :=
  !fr.multiErr.isEmpty

mutual

/-- The function `ast.Inspect`, a depth-first walk: the callback is called on
the node, and on the children of the node when it returned true. (The closing
call of the callback on nil is left out: `genDecl` returns true on nil and
does nothing.) -/
def Inspect {σ : Type} (f : Node → σ → σ × Bool) : Node → σ → σ
  | .constDecl specs, s => (f (.constDecl specs) s).1
  | .other cs, s =>
    if (f (.other cs) s).2 then InspectList f cs (f (.other cs) s).1 else (f (.other cs) s).1

/-- The walk of `ast.Inspect` over the children of a node, in order. -/
def InspectList {σ : Type} (f : Node → σ → σ × Bool) : List Node → σ → σ
  | [], s => s
  | n :: ns, s => InspectList f ns (Inspect f n s)

end

/-- The walk `ast.Inspect(file.file, ...)` from the file node: the callbacks
used here return true on the file node, so the walk goes on with its
declarations. -/
def InspectFile {σ : Type} (f : Node → σ → σ × Bool) (file : AstFile) (s : σ) : σ :=
  InspectList f file.Decls s

/-- Lines 222-235 of `genDecl`: the remembered type after the head of a spec
was read, or `none` when line 226 leaves the spec with `continue` (the
remembered type is then the one before). -/
def nextTypeName (vspec : ValueSpec) (currentTypeName : String) : Option String :=
  match vspec.Type_ with
  | some (Expr.ident Name) => some Name
  | some _ => none
  | none => if vspec.Values.length > 0 then some "" else some currentTypeName

/-- Lines 241-260 of `genDecl`: the loop over `vspec.Names`. The flag is true
when the loop left `genDecl` through the `return false` of line 250. -/
def genDeclNames (defs : Defs) : List Ident → FileRunner → FileRunner × Bool
  | [], runner => (runner, false)
  | name :: rest, runner =>
    if name.Name = "_" then genDeclNames defs rest runner
    else
      match defs.lookup name.ptr with
      | none =>
        ({ runner with multiErr := runner.multiErr ++ ["no value for constant " ++ name.Name] },
          true)
      | some obj =>
        genDeclNames defs rest
          { runner with values := runner.values ++ [⟨name.Name, obj.Str, obj.ExactStr, obj.Kind⟩] }

/-- Lines 220-261 of `genDecl`: the loop over `decl.Specs`, with the local
variable `currentTypeName`. -/
def genDeclSpecs (defs : Defs) : List ValueSpec → String → FileRunner → FileRunner
  | [], _, runner => runner
  | vspec :: rest, currentTypeName, runner =>
    match nextTypeName vspec currentTypeName with
    | none => genDeclSpecs defs rest currentTypeName runner
    | some current =>
      if current ≠ runner.typeName then genDeclSpecs defs rest current runner
      else
        match genDeclNames defs vspec.Names runner with
        | (runner1, true) => runner1
        | (runner1, false) => genDeclSpecs defs rest current runner1

/-- The method `File.genDecl`, the callback handed to `ast.Inspect`: `defs` is
`f.pkg.defs` and the runner is `f.runner`. The result holds the runner after
the call and the boolean that the callback returns. -/
def genDecl (defs : Defs) (node : Node) (runner : FileRunner) : FileRunner × Bool :=
  match node with
  | .other _ => (runner, true)
  | .constDecl specs => (genDeclSpecs defs specs "" runner, false)

/-- The function `strings.Split(s, ".")` on the characters of `s`. (The
separator is one ASCII byte, which never occurs inside the UTF-8 encoding of
another character, so splitting characters and splitting bytes agree.) -/
def splitDot : List Char → List (List Char)
  | [] => [[]]
  | c :: cs =>
    if c = '.' then [] :: splitDot cs
    else
      match splitDot cs with
      | [] => [[c]]
      | part :: parts => (c :: part) :: parts

/-- The errors that `inspect` returns, by the line that builds them. -/
inductive InspectError
  | noFiles
  | unexpectedTypeName (typeName : String)
  | inspectionFailed (multiErr : List String)
  | noValues (typeName : String)
deriving DecidableEq, Repr

/-- What a call of `inspect` yields: the two values it returns, and the
positions in `p.pkg.files` of the files it handed to `ast.Inspect`, in order
(`scanned` is a ghost of the model, not a value of the program). -/
structure InspectOut where
  result : Result
  err : Option InspectError
  scanned : List Nat
deriving DecidableEq, Repr

/-- Lines 162-174 of `inspect`: the runner made from the type name, or `none`
when the name has more than one separator. -/
def newRunner (p : Package) (typeName : String) : Option FileRunner :=
  match (splitDot typeName.data).map String.mk with
  | [_] =>
    some { pkgName := p.name, typeName := typeName, repTypeName := typeName,
           values := [], multiErr := [] }
  | [pkgName, bareName] =>
    some { pkgName := pkgName, typeName := bareName, repTypeName := typeName,
           values := [], multiErr := [] }
  | _ => none

/-- Lines 183-197 of `inspect`: the loop over `p.pkg.files`. `i` is the
position of the head of the remaining files. The middle component is the
`multiErr` of the file whose scan ended with an error, when the loop was left
on line 194. -/
def inspectFiles (p : Package) :
    List File → Nat → FileRunner → Result → List Nat → Result × Option (List String) × List Nat
  | [], _, _, result, scanned => (result, none, scanned)
  | file :: rest, i, runner, result, scanned =>
    if runner.pkgName ≠ file.pkg.name p then inspectFiles p rest (i + 1) runner result scanned
    else
      match file.file with
      | none => inspectFiles p rest (i + 1) runner result scanned
      | some astFile =>
        if (InspectFile (genDecl (file.pkg.defs p)) astFile runner.ResetForLoop).HasError then
          (result,
            some (InspectFile (genDecl (file.pkg.defs p)) astFile runner.ResetForLoop).multiErr,
            scanned ++ [i])
        else
          inspectFiles p rest (i + 1)
            (InspectFile (genDecl (file.pkg.defs p)) astFile runner.ResetForLoop)
            { result with
              Values := result.Values ++
                (InspectFile (genDecl (file.pkg.defs p)) astFile runner.ResetForLoop).values }
            (scanned ++ [i])

/-- Lines 176-182 of `inspect`: the result before the loop over the files. -/
def newResult (runner : FileRunner) : Result :=
  { PkgName := runner.pkgName, TypeName := runner.typeName,
    RepTypeName := runner.repTypeName, Values := [], Imports := [] }

/-- The method `Parser.inspect`, on the parser's package `p`. -/
def inspect (p : Package) (typeName : String) : InspectOut :=
  if p.files.length = 0 then ⟨Result.zero, some .noFiles, []⟩
  else
    match newRunner p typeName with
    | none => ⟨Result.zero, some (.unexpectedTypeName typeName), []⟩
    | some runner =>
      match inspectFiles p p.files 0 runner (newResult runner) [] with
      | (result, some multiErr, scanned) => ⟨result, some (.inspectionFailed multiErr), scanned⟩
      | (result, none, scanned) =>
        if result.Values.length = 0 then ⟨result, some (.noValues typeName), scanned⟩
        else ⟨{ result with Imports := result.Imports ++ p.imports }, none, scanned⟩

/-! ## Loading: `addPackage` -/

/-- A `*packages.Package` as `addPackage` reads it, without its imports. -/
structure LoadedPackage where
  Name : String
  Defs : Defs
  Syntax : List AstFile

/-- The primary `*packages.Package` handed to `addPackage`. `Imports` holds the
values of the map `pkg.Imports` in the order the `range` loop yields them. -/
structure PrimaryPackage extends LoadedPackage where
  Imports : List LoadedPackage

/-- Lines 124-132 of `addPackage`: the loop over `file.Imports`. Reading
`fileImp.Name.Name` through a nil `fileImp.Name` is a nil pointer dereference:
the run panics (`none`). -/
def addImports : List ImportSpec → List Import → Option (List Import)
  | [], imports => some imports
  | fileImp :: rest, imports =>
    match fileImp.Name with
    | none => none
    | some name =>
      addImports rest
        (imports ++ [{ Name := name.Name, Path := fileImp.Path,
                       Comment := fileImp.Comment.Text, Doc := fileImp.Doc.Text }])

/-- Lines 123-138 of `addPackage`: the loop over `pkg.Syntax`. -/
def addSyntax : List AstFile → List Import → List File → Option (List Import × List File)
  | [], imports, files => some (imports, files)
  | file :: rest, imports, files =>
    match addImports file.Imports imports with
    | none => none
    | some imports1 => addSyntax rest imports1 (files ++ [{ pkg := .primary, file := some file }])

/-- Lines 140-153 of `addPackage`: the files of the directly imported
packages, each with a package record of its own. -/
def importedFiles : List LoadedPackage → List File
  | [] => []
  | importedPkg :: rest =>
    importedPkg.Syntax.map
        (fun file => { pkg := .imported importedPkg.Name importedPkg.Defs, file := some file })
      ++ importedFiles rest

/-- The method `Parser.addPackage`: the package it stores in `p.pkg`, or
`none` when it panics. -/
def addPackage (pkg : PrimaryPackage) : Option Package :=
  match addSyntax pkg.Syntax [] [] with
  | none => none
  | some (imports, files) =>
    some { name := pkg.Name, defs := pkg.Defs, imports := imports,
           files := files ++ importedFiles pkg.Imports }

/-! ## `parser.go`: `Parse` -/

/-- The errors that `Parse` returns, by the line that builds them. -/
inductive ParseError
  | load (err : String)
  | packagesFound (n : Nat)
  | inspect (err : InspectError)
  | noTypes (types : List String)
deriving DecidableEq, Repr

/-- The method `Parser.parsePackage`; `loaded` is what `packages.Load` returned
for the patterns and tags. The result is the error it returns, or the package
that `addPackage` stored in `p.pkg`; `none` when `addPackage` panics. -/
def parsePackage (loaded : Except String (List PrimaryPackage)) :
    Option (Except ParseError Package) :=
  match loaded with
  | .error err => some (.error (.load err))
  | .ok [pkg] => (addPackage pkg).map Except.ok
  | .ok pkgs => some (.error (.packagesFound pkgs.length))

/-- What a call of `Parse` yields: the error it returns, what `ResultList()`
and `BasePackageName()` return afterwards, and the type names on which
`inspect` was called, in order (`inspected` is a ghost of the model). -/
structure ParseOut where
  err : Option ParseError
  resultList : List Result
  basePkgName : String
  inspected : List String
deriving DecidableEq, Repr

/-- Lines 40-46 of `Parse`: the loop over `p.c.types`. `done` holds the entries
of `p.resultList` already assigned; when `inspect` fails, the entries not yet
assigned keep the zero value that `make` gave them. -/
def parseTypes (p : Package) :
    List String → List Result → List String → Option InspectError × List Result × List String
  | [], done, inspected => (none, done, inspected)
  | typeName :: rest, done, inspected =>
    match (inspect p typeName).err with
    | some err =>
      (some err, done ++ List.replicate (rest.length + 1) Result.zero, inspected ++ [typeName])
    | none =>
      parseTypes p rest (done ++ [(inspect p typeName).result]) (inspected ++ [typeName])

/-- The method `Parser.Parse`, for the type names `types` of the
configuration; `none` when it panics. -/
def Parse (loaded : Except String (List PrimaryPackage)) (types : List String) :
    Option ParseOut :=
  match parsePackage loaded with
  | none => none
  | some (.error err) => some ⟨some err, [], "", []⟩
  | some (.ok p) =>
    match parseTypes p types [] [] with
    | (some err, resultList, inspected) =>
      some ⟨some (.inspect err), resultList, p.name, inspected⟩
    | (none, resultList, inspected) =>
      if resultList.length = 0 then some ⟨some (.noTypes types), resultList, p.name, inspected⟩
      else some ⟨none, resultList, p.name, inspected⟩

/-- Modelled from the spec: the method `Parser.ValuesList`, which
`Generator.Generate` calls and `parser.go` does not define (it defines
`ResultList`). The specification has the generator receive "the full ordered
list of per-type Results" from the parser: the list is the result list. -/
def ValuesList (out : ParseOut) : List Result :=
  out.resultList

/-! ## `main.go` -/

/-- The function `strings.Split(s, sep)` for a separator of one ASCII
character, on the characters of `s`. -/
def splitChar (sep : Char) : List Char → List (List Char)
  | [] => [[]]
  | c :: cs =>
    if c = sep then [] :: splitChar sep cs
    else
      match splitChar sep cs with
      | [] => [[c]]
      | part :: parts => (c :: part) :: parts

/-- The function `strings.Split` on strings. -/
def Split (s : String) (sep : Char) : List String :=
  (splitChar sep s.data).map String.mk

/-- The function `strings.SplitN(s, sep, 2)` for a separator of one ASCII
character: the text before the first separator and the text after it, or the
text alone when it holds no separator. -/
def splitFirst (sep : Char) : List Char → List (List Char)
  | [] => [[]]
  | c :: cs =>
    if c = sep then [[], cs]
    else
      match splitFirst sep cs with
      | [] => [[c]]
      | part :: parts => (c :: part) :: parts

/-- The function `strings.Replace(s, ".", "_", 1)`: the first `.` becomes `_`. -/
def replaceFirstDot : List Char → List Char
  | [] => []
  | c :: cs => if c = '.' then '_' :: cs else c :: replaceFirstDot cs

/-- The assignment `m[key] = value` on a `map[string]string`, kept as a list
of pairs with distinct keys. -/
def mapSet (m : List (String × String)) (key value : String) : List (String × String) :=
  (key, value) :: m.filter (fun kv => kv.1 ≠ key)

/-- The flag variables of `main.go` after `flag.Parse()`, with `flag.Args()`
and `os.Args[1:]`. -/
structure Flags where
  typeNames : String
  templateFile : String
  templateData : String
  outputFile : String
  buildTags : String
  Args : List String
  osArgs : List String

/-- What `preprocess` reads from outside the program: `os.Stat(name)` followed
by `IsDir()` (the helper `isDirectory`), and the library functions
`filepath.Dir`, `filepath.Join` (of two elements) and `strings.ToLower`. -/
structure Env where
  isDirectory : String → Except String Bool
  Dir : String → String
  Join : String → String → String
  ToLower : String → String

/-- The struct `Config`. -/
structure Config where
  types : List String
  tags : List String
  extraData : List (String × String)
  execArgsStr : String
  dirOrFiles : List String
  baseDir : String
  templateFile : String
  outputFile : String
deriving DecidableEq, Repr

/-- The ways `preprocess` ends the process: `flag.Usage()` with `os.Exit(2)`,
and the three calls of `log.Fatal`. -/
inductive Exit
  | usage
  | invalidExtraData (kvPair : String)
  | stat (err : String)
  | tagsOption
deriving DecidableEq, Repr

/-- Lines 87-93 of `preprocess`: the loop over `kvPairs`. -/
def extraDataOf : List String → List (String × String) → Except Exit (List (String × String))
  | [], m => .ok m
  | kvPair :: rest, m =>
    match (splitFirst '=' kvPair.data).map String.mk with
    | [key, value] => extraDataOf rest (mapSet m key value)
    | _ => .error (.invalidExtraData kvPair)

/-- The function `detectDirectory`: the error, or `dir` and `dirSpecified`.
`none` stands for the panic of `dirOrFiles[0]` on an empty list. -/
def detectDirectory (env : Env) (dirOrFiles : List String) :
    Option (Except String (String × Bool)) :=
  match dirOrFiles with
  | [] => none
  | [name] =>
    match env.isDirectory name with
    | .error err => some (.error err)
    | .ok true => some (.ok (name, true))
    | .ok false => some (.ok (env.Dir name, false))
  | name :: _ => some (.ok (env.Dir name, false))

/-- Lines 96-100 of `preprocess`: the arguments, or `.` when there is none. -/
def dirOrFilesOf (fl : Flags) : List String :=
  if fl.Args.length = 0 then ["."] else fl.Args

/-- Lines 79-81 of `preprocess`: the build tags. -/
def tagsOf (fl : Flags) : List String :=
  if fl.buildTags.length > 0 then Split fl.buildTags ',' else []

/-- Lines 110-115 of `preprocess`: the output file. (`config.types[0]` exists:
`strings.Split` never returns an empty list.) -/
def outputFileOf (env : Env) (fl : Flags) (types : List String) (baseDir : String) : String :=
  if fl.outputFile = "" then
    env.Join baseDir
      (env.ToLower (String.mk (replaceFirstDot (types.headD "").data) ++ "_constconv.go"))
  else fl.outputFile

/-- The function `preprocess`: the configuration, or the way the process is
ended; `none` for a panic. -/
def preprocess (env : Env) (fl : Flags) : Option (Except Exit Config) :=
  if fl.typeNames.length = 0 ∨ fl.templateFile.length = 0 then some (.error .usage)
  else
    match (if fl.templateData.length > 0 then extraDataOf (Split fl.templateData ';') []
           else .ok []) with
    | .error e => some (.error e)
    | .ok extraData =>
      match detectDirectory env (dirOrFilesOf fl) with
      | none => none
      | some (.error err) => some (.error (.stat err))
      | some (.ok (dir, dirSpecified)) =>
        if dirSpecified = true ∧ (tagsOf fl).length ≠ 0 then some (.error .tagsOption)
        else
          some (.ok
            { types := Split fl.typeNames ',',
              tags := tagsOf fl,
              extraData := extraData,
              execArgsStr := " ".intercalate fl.osArgs,
              dirOrFiles := dirOrFilesOf fl,
              baseDir := dir,
              templateFile := env.Join dir fl.templateFile,
              outputFile := outputFileOf env fl (Split fl.typeNames ',') dir })

/-! ## `generator.go` -/

/-- The bytes of a buffer. -/
abbrev Bytes := List UInt8

/-- A value stored in the template data, a `map[string]interface{}`: a string,
the extra data, an element of the list that the parser hands over, or that
list. -/
inductive TemplateValue (α : Type)
  | string (s : String)
  | extraData (m : List (String × String))
  | element (x : α)
  | list (xs : List α)
deriving DecidableEq, Repr

/-- Lines 39-47 of `Generate`: the template data, as the list of the entries of
the map literal; `valuesList` is what `p.ValuesList()` returned. `none` stands
for the panic of `valuesList[0]` on an empty list. -/
def templateData {α : Type} (c : Config) (basePackageName : String) (valuesList : List α) :
    Option (List (String × TemplateValue α)) :=
  match valuesList with
  | [] => none
  | first :: _ =>
    some [ ("_doNotEdit",
             .string ("// DO NOT EDIT.; Code generated by \"constconv " ++ c.execArgsStr ++ "\"")),
           ("_extra", .extraData c.extraData),
           ("basePackageName", .string basePackageName),
           ("values", .element first),
           ("valuesList", .list valuesList) ]

/-- The method `Generator.format`; `formatSource` is `format.Source` of
`go/format`. The pair holds the bytes and the error that it returns. -/
def format (formatSource : Bytes → Except String Bytes) (buf : Bytes) : Bytes × Option String :=
  match formatSource buf with
  | .error err => (buf, some ("internal error. format failed: " ++ err))
  | .ok src => (src, none)

/-- The method `Generator.Generate`; `execute` is the execution of the loaded
template on the data, which gives the rendered bytes or an error. `none` when
it panics. -/
def Generate {α : Type} (c : Config)
    (execute : List (String × TemplateValue α) → Except String Bytes)
    (formatSource : Bytes → Except String Bytes)
    (basePackageName : String) (valuesList : List α) : Option (Option Bytes × Option String) :=
  match templateData c basePackageName valuesList with
  | none => none
  | some data =>
    match execute data with
    | .error err => some (none, some ("template execution failed: " ++ err))
    | .ok buf => some (some (format formatSource buf).1, (format formatSource buf).2)

/-! ## `testdata/dayofweek.go` -/

/-- The const block of `testdata/dayofweek.go`, lines 10-27. -/
def dayOfWeekSpecs : List ValueSpec :=
  [ ⟨[⟨0, "DayOfWeek_DAY_OF_WEEK_UNSPECIFIED"⟩], some (.ident "DayOfWeek"), [.basicLit "0"]⟩,
    ⟨[⟨1, "DayOfWeek_MONDAY"⟩], some (.ident "DayOfWeek"), [.basicLit "1"]⟩,
    ⟨[⟨2, "DayOfWeek_TUESDAY"⟩], some (.ident "DayOfWeek"), [.basicLit "2"]⟩,
    ⟨[⟨3, "DayOfWeek_WEDNESDAY"⟩], some (.ident "DayOfWeek"), [.basicLit "3"]⟩,
    ⟨[⟨4, "DayOfWeek_THURSDAY"⟩], some (.ident "DayOfWeek"), [.basicLit "4"]⟩,
    ⟨[⟨5, "DayOfWeek_FRIDAY"⟩], some (.ident "DayOfWeek"), [.basicLit "5"]⟩,
    ⟨[⟨6, "DayOfWeek_SATURDAY"⟩], some (.ident "DayOfWeek"), [.basicLit "6"]⟩,
    ⟨[⟨7, "DayOfWeek_SUNDAY"⟩], some (.ident "DayOfWeek"), [.basicLit "7"]⟩ ]

/-- The file `testdata/dayofweek.go`: no import, the declaration of the type
`DayOfWeek` (a `GenDecl` with one `TypeSpec`, whose children are two
identifiers) and the const block. -/
def dayOfWeekFile : AstFile :=
  { Imports := [],
    Decls := [ .other [.other [.other [], .other []]], .constDecl dayOfWeekSpecs ] }

/-- The symbol table of the package `testdata`: the eight constants, with the
values that the type checker computes for them. -/
def dayOfWeekDefs : Defs :=
  [ (0, ⟨"0", "0", .Int⟩), (1, ⟨"1", "1", .Int⟩), (2, ⟨"2", "2", .Int⟩), (3, ⟨"3", "3", .Int⟩),
    (4, ⟨"4", "4", .Int⟩), (5, ⟨"5", "5", .Int⟩), (6, ⟨"6", "6", .Int⟩), (7, ⟨"7", "7", .Int⟩) ]

/-- The parser's package after loading `testdata/dayofweek.go` alone. -/
def dayOfWeekPackage : Package :=
  { name := "testdata", defs := dayOfWeekDefs, imports := [],
    files := [{ pkg := .primary, file := some dayOfWeekFile }] }

/-! ## The remembered-type rule, as the specification words it -/

/-- The non-blank names among the names of a spec, in order. -/
def nonBlankNames (names : List Ident) : List String :=
  (names.map Ident.Name).filter (fun n => n ≠ "_")

/-- Steps 1-3 of the rule: the remembered type after a spec. An explicit type
that is a simple identifier is remembered; an explicit type of another form is
ignored; an initializer without a type empties the remembered type; a bare spec
leaves it as it is. -/
def rememberedType (prev : String) (s : ValueSpec) : String :=
  match s.Type_ with
  | some (Expr.ident Name) => Name
  | some _ => prev
  | none => if s.Values = [] then prev else ""

/-- The remembered type after each spec of a block, the block being entered
with the remembered type `prev`. -/
def rememberedTypes : String → List ValueSpec → List String
  | _, [] => []
  | prev, s :: rest => rememberedType prev s :: rememberedTypes (rememberedType prev s) rest

/-- A spec whose explicit type is not a simple identifier: it cannot match a
requested type name. -/
def hasQualifiedType (s : ValueSpec) : Bool :=
  match s.Type_ with
  | some (Expr.ident _) => false
  | some _ => true
  | none => false

/-- Step 4 of the rule: the specs of a block that are classified as the type
`T`, in source order. -/
def classifiedSpecs (T : String) (prev : String) (block : List ValueSpec) : List ValueSpec :=
  ((block.zip (rememberedTypes prev block)).filter
    (fun st => !hasQualifiedType st.1 && st.2 == T)).map Prod.fst

/-- The non-blank names of the specs of a block classified as `T`. -/
def classifiedNames (T : String) (prev : String) (block : List ValueSpec) : List String :=
  (classifiedSpecs T prev block).flatMap (fun s => nonBlankNames s.Names)

mutual

/-- The const blocks below a node, at any depth, in source order. -/
def constBlocks : Node → List (List ValueSpec)
  | .constDecl specs => [specs]
  | .other cs => constBlocksOfList cs

/-- The const blocks below the nodes of a list, in source order. -/
def constBlocksOfList : List Node → List (List ValueSpec)
  | [] => []
  | n :: ns => constBlocks n ++ constBlocksOfList ns

end

/-- The names that the rule classifies as `T` in a file: every const block of
the file, in source order. -/
def fileClassifiedNames (T : String) (file : AstFile) : List String :=
  (constBlocksOfList file.Decls).flatMap (classifiedNames T "")

/-- The names that the rule classifies as `T` in the files owned by the
package named `pkgName`, the files taken in loaded order. -/
def packageClassifiedNames (p : Package) (pkgName T : String) : List String :=
  ((p.files.filter (fun f => f.pkg.name p = pkgName)).filterMap File.file).flatMap
    (fileClassifiedNames T)

/-- The values that the loop over the names of a spec makes when no name
fails to resolve: one for each non-blank name found in the symbol table. -/
def resolved (defs : Defs) (names : List Ident) : List Value :=
  names.filterMap (fun name =>
    if name.Name = "_" then none
    else (defs.lookup name.ptr).map (fun obj => ⟨name.Name, obj.Str, obj.ExactStr, obj.Kind⟩))

/-- The effective type of a spec of a const block, `preceding` being the specs
of the block before it: its own explicit type expression or, for a bare spec
(no type, no initializer), the type expression of the nearest preceding spec
that has initializer expressions. -/
def effectiveType (preceding : List ValueSpec) (s : ValueSpec) : Option Expr :=
  match s.Type_ with
  | some t => some t
  | none =>
    if s.Values = [] then
      (preceding.reverse.find? (fun q => !q.Values.isEmpty)).bind ValueSpec.Type_
    else none

/-- A const block occurs below a node, at any depth. -/
inductive Within (block : List ValueSpec) : Node → Prop
  | here : Within block (.constDecl block)
  | inside (cs : List Node) (n : Node) : n ∈ cs → Within block n → Within block (.other cs)

/-- A const block holds a spec classified as `T` one of whose non-blank names
has no entry in the symbol table. -/
def HasUnresolved (defs : Defs) (T : String) (block : List ValueSpec) : Prop :=
  ∃ s ∈ classifiedSpecs T "" block, ∃ n ∈ s.Names, n.Name ≠ "_" ∧ defs.lookup n.ptr = none

/-- The values that the scan of a file adds to the result: those of the runner
after `ast.Inspect` has walked the file from the reset runner `reset`. -/
def fileValues (p : Package) (reset : FileRunner) (f : File) : List Value :=
  match f.file with
  | none => []
  | some astFile => (InspectFile (genDecl (f.pkg.defs p)) astFile reset).values

/-- The key of a pair of the `-data` string: the text before its first `=`. -/
def pairKey (kvPair : String) : String :=
  String.mk (kvPair.data.takeWhile (fun c => c ≠ '='))

/-- The value of a pair of the `-data` string: the text after its first `=`. -/
def pairValue (kvPair : String) : String :=
  String.mk ((kvPair.data.dropWhile (fun c => c ≠ '=')).drop 1)

/-- The value that the extra data of the `-data` string `data` hold for a key:
that of the last pair with this key, the pairs being the pieces of `data`
between the `;`. -/
def expectedExtraData (data : String) (key : String) : Option String :=
  ((Split data ';').reverse.find? (fun kvPair => pairKey kvPair = key)).map pairValue

/-! ## Sample inputs -/

/-- A runner as line 163-167 of `inspect` makes it for the bare type name `T`
in a primary package named `main`. -/
def sampleRunner (T : String) : FileRunner :=
  { pkgName := "main", typeName := T, repTypeName := T, values := [], multiErr := [] }

/-- The spec `A T = 0`. -/
def specA : ValueSpec := ⟨[⟨0, "A"⟩], some (.ident "T"), [.basicLit "0"]⟩

/-- The bare spec `B`. -/
def specB : ValueSpec := ⟨[⟨1, "B"⟩], none, []⟩

/-- The bare spec `C`. -/
def specC : ValueSpec := ⟨[⟨2, "C"⟩], none, []⟩

/-- The spec `D T2 = "x"`. -/
def specD : ValueSpec := ⟨[⟨3, "D"⟩], some (.ident "T2"), [.basicLit "\"x\""]⟩

/-- A symbol table for the constants `A`, `B`, `C` (of type `T`) and `D`. -/
def sampleDefs : Defs :=
  [ (0, ⟨"0", "0", .Int⟩), (1, ⟨"0", "0", .Int⟩), (2, ⟨"0", "0", .Int⟩),
    (3, ⟨"\"x\"", "\"x\"", .String⟩) ]

/-- A symbol table in which the identifier of `A` has no entry. -/
def defsWithoutA : Defs :=
  [ (1, ⟨"0", "0", .Int⟩), (2, ⟨"0", "0", .Int⟩) ]

/-- The spec `B pkg.U = 1`, whose type is a selector expression. -/
def specSelector : ValueSpec := ⟨[⟨1, "B"⟩], some (.selector "pkg" "U"), [.basicLit "1"]⟩

/-- The block `const ( A T = 0; B pkg.U = 1; C )`. -/
def staleBlock : List ValueSpec := [specA, specSelector, specC]

/-- The file `package main; func f() { const X T = 1 }`: a function
declaration whose children are its name, its type and its body; the body holds
one declaration statement, which holds the const declaration. -/
def nestedFile : AstFile :=
  { Imports := [],
    Decls := [ .other [ .other [], .other [],
                 .other [ .other [ .constDecl [⟨[⟨0, "X"⟩], some (.ident "T"), [.basicLit "1"]⟩] ] ] ] ] }

/-- The package `main` made of `nestedFile` alone. -/
def nestedPackage : Package :=
  { name := "main", defs := [(0, ⟨"1", "1", .Int⟩)], imports := [],
    files := [{ pkg := .primary, file := some nestedFile }] }

/-- The file `package main; const X = 1`. -/
def untypedFile : AstFile :=
  { Imports := [], Decls := [ .constDecl [⟨[⟨0, "X"⟩], none, [.basicLit "1"]⟩] ] }

/-- The package `main` made of `untypedFile` alone. -/
def untypedPackage : Package :=
  { name := "main", defs := [(0, ⟨"1", "1", .Int⟩)], imports := [],
    files := [{ pkg := .primary, file := some untypedFile }] }

/-- The file `package main; const A T = 0; const B T = 1`. -/
def twoBlockFile : AstFile :=
  { Imports := [],
    Decls := [ .constDecl [specA], .constDecl [⟨[⟨1, "B"⟩], some (.ident "T"), [.basicLit "1"]⟩] ] }

/-- The file `package main; const C T = 2`. -/
def laterFile : AstFile :=
  { Imports := [], Decls := [ .constDecl [⟨[⟨2, "C"⟩], some (.ident "T"), [.basicLit "2"]⟩] ] }

/-- The package `main` made of `twoBlockFile` and `laterFile`, in which the
identifier of `A` has no entry in the symbol table. -/
def unresolvedPackage : Package :=
  { name := "main", defs := defsWithoutA, imports := [],
    files := [{ pkg := .primary, file := some twoBlockFile },
              { pkg := .primary, file := some laterFile }] }

/-- The file `package main; import "fmt"`: the import has no local name. -/
def plainImportFile : AstFile :=
  { Imports := [⟨none, none, "\"fmt\"", none⟩], Decls := [] }

/-- The file `package main; import mathrand "math/rand"`. -/
def aliasImportFile : AstFile :=
  { Imports := [⟨none, some ⟨0, "mathrand"⟩, "\"math/rand\"", none⟩], Decls := [] }

/-- The file `package pkg; const K T = 1` of an imported package. -/
def importedFile : AstFile :=
  { Imports := [], Decls := [ .constDecl [⟨[⟨1, "K"⟩], some (.ident "T"), [.basicLit "1"]⟩] ] }

/-- The file `package main; const M T = 2` of the primary package. -/
def primaryFile : AstFile :=
  { Imports := [], Decls := [ .constDecl [⟨[⟨0, "M"⟩], some (.ident "T"), [.basicLit "2"]⟩] ] }

/-- The primary package `main` with `primaryFile`, and the file `importedFile`
of the package `pkg` that it imports. -/
def qualifiedPackage : Package :=
  { name := "main", defs := [(0, ⟨"2", "2", .Int⟩)], imports := [],
    files := [{ pkg := .primary, file := some primaryFile },
              { pkg := .imported "pkg" [(1, ⟨"1", "1", .Int⟩)], file := some importedFile }] }

/-- A file system in which `testdata` is a directory and
`testdata/dayofweek.go`, `a.go` and `b.go` are files, with the library
functions on the paths and names used below: `filepath.Dir`, `filepath.Join`
of a clean directory and a file name, and `strings.ToLower` on ASCII text. -/
def sampleEnv : Env :=
  { isDirectory := fun name =>
      if name = "testdata" ∨ name = "." then .ok true
      else if name = "testdata/dayofweek.go" ∨ name = "a.go" ∨ name = "b.go" then .ok false
      else .error ("stat " ++ name ++ ": no such file or directory"),
    Dir := fun path => if path = "testdata/dayofweek.go" then "testdata" else ".",
    Join := fun dir name => dir ++ "/" ++ name,
    ToLower := fun s => String.mk (s.data.map Char.toLower) }

/-- The command line `constconv -type=DayOfWeek -template=dayofweek.tmpl
testdata/dayofweek.go`. -/
def sampleFlags : Flags :=
  { typeNames := "DayOfWeek", templateFile := "dayofweek.tmpl", templateData := "",
    outputFile := "", buildTags := "", Args := ["testdata/dayofweek.go"],
    osArgs := ["-type=DayOfWeek", "-template=dayofweek.tmpl", "testdata/dayofweek.go"] }

/-- The command line `constconv -type=DayOfWeek -template=dayofweek.tmpl
-tags=foo testdata`: build tags and one directory. -/
def tagsDirFlags : Flags :=
  { typeNames := "DayOfWeek", templateFile := "dayofweek.tmpl", templateData := "",
    outputFile := "", buildTags := "foo", Args := ["testdata"],
    osArgs := ["-type=DayOfWeek", "-template=dayofweek.tmpl", "-tags=foo", "testdata"] }

/-- The command line `constconv -type=DayOfWeek -template=dayofweek.tmpl
-tags=foo a.go b.go`: build tags and an explicit file list. -/
def tagsFilesFlags : Flags :=
  { typeNames := "DayOfWeek", templateFile := "dayofweek.tmpl", templateData := "",
    outputFile := "", buildTags := "foo", Args := ["a.go", "b.go"],
    osArgs := ["-type=DayOfWeek", "-template=dayofweek.tmpl", "-tags=foo", "a.go", "b.go"] }

/-- The command line of `sampleFlags` with
`-data="typename=Foo;prefix=Bar"`. -/
def dataFlags : Flags :=
  { typeNames := "DayOfWeek", templateFile := "dayofweek.tmpl",
    templateData := "typename=Foo;prefix=Bar", outputFile := "", buildTags := "",
    Args := ["testdata/dayofweek.go"],
    osArgs := ["-type=DayOfWeek", "-template=dayofweek.tmpl",
               "-data=typename=Foo;prefix=Bar", "testdata/dayofweek.go"] }

/-- A formatter that accepts the one-byte buffer `[1]` and formats it to
`[1, 10]`, and rejects every other buffer. -/
def sampleFormat : Bytes → Except String Bytes :=
  fun buf => if buf = [1] then .ok [1, 10] else .error "expected declaration"

/-- A configuration as `preprocess` makes it for `sampleFlags`. -/
def sampleConfig : Config :=
  { types := ["DayOfWeek"], tags := [], extraData := [],
    execArgsStr := "-type=DayOfWeek -template=dayofweek.tmpl testdata/dayofweek.go",
    dirOrFiles := ["testdata/dayofweek.go"], baseDir := "testdata",
    templateFile := "testdata/dayofweek.tmpl",
    outputFile := "testdata/dayofweek_constconv.go" }

/-- The outcome of `packages.Load` on `testdata/dayofweek.go`: one package. -/
def dayOfWeekLoaded : Except String (List PrimaryPackage) :=
  .ok [⟨⟨"testdata", dayOfWeekDefs, [dayOfWeekFile]⟩, []⟩]

/-- The file `package main; const ( _, A T = 0, 1 )`: a blank identifier and a
name in one spec. -/
def blankFile : AstFile :=
  { Imports := [],
    Decls := [ .constDecl [⟨[⟨0, "_"⟩, ⟨1, "A"⟩], some (.ident "T"),
                            [.basicLit "0", .basicLit "1"]⟩] ] }

/-- The package `main` made of `blankFile` alone. -/
def blankPackage : Package :=
  { name := "main", defs := [(0, ⟨"0", "0", .Int⟩), (1, ⟨"1", "1", .Int⟩)], imports := [],
    files := [{ pkg := .primary, file := some blankFile }] }

/-! ## Lemmas on the scanner -/

/-- The runner `r1` continues the runner `r`: same request, the errors of `r`
followed by new ones and, when there is no new error, the values of `r`
followed by values with the names `names`. -/
structure Grows (r r1 : FileRunner) (names : List String) : Prop where
  pkgName : r1.pkgName = r.pkgName
  typeName : r1.typeName = r.typeName
  repTypeName : r1.repTypeName = r.repTypeName
  more : ∃ extra, r1.multiErr = r.multiErr ++ extra ∧
    (extra = [] → r1.values.map Value.Name = r.values.map Value.Name ++ names)

theorem Grows.refl (r : FileRunner) : Grows r r [] :=
  ⟨rfl, rfl, rfl, [], by simp, by simp⟩

theorem Grows.trans {r r1 r2 : FileRunner} {a b : List String}
    (h1 : Grows r r1 a) (h2 : Grows r1 r2 b) : Grows r r2 (a ++ b) := by
  obtain ⟨e1, he1, hv1⟩ := h1.more
  obtain ⟨e2, he2, hv2⟩ := h2.more
  refine ⟨h2.pkgName.trans h1.pkgName, h2.typeName.trans h1.typeName,
    h2.repTypeName.trans h1.repTypeName, e1 ++ e2, ?_, ?_⟩
  · rw [he2, he1, List.append_assoc]
  · intro h
    have h1e : e1 = [] := (List.append_eq_nil.mp h).1
    have h2e : e2 = [] := (List.append_eq_nil.mp h).2
    rw [hv2 h2e, hv1 h1e, List.append_assoc]

/-- A runner that gained an error continues the former one whatever names are
asked for. -/
theorem Grows.of_error {r r1 : FileRunner} {a : List String} (b : List String)
    (h : Grows r r1 a) (herr : r1.multiErr ≠ r.multiErr) : Grows r r1 b := by
  obtain ⟨e, he, _⟩ := h.more
  refine ⟨h.pkgName, h.typeName, h.repTypeName, e, he, ?_⟩
  intro h0
  subst h0
  simp at he
  exact absurd he herr

theorem genDeclNames_grows (defs : Defs) (names : List Ident) (r : FileRunner) :
    Grows r (genDeclNames defs names r).1 (nonBlankNames names) ∧
    ((genDeclNames defs names r).2 = true ↔ (genDeclNames defs names r).1.multiErr ≠ r.multiErr) := by
  induction names generalizing r with
  | nil => exact ⟨Grows.refl r, by simp [genDeclNames]⟩
  | cons n rest ih =>
    unfold genDeclNames
    by_cases hb : n.Name = "_"
    · simp only [hb, if_true]
      have := ih r
      simpa [nonBlankNames, hb] using this
    · simp only [hb, if_false]
      cases hl : defs.lookup n.ptr with
      | none =>
        refine ⟨⟨rfl, rfl, rfl, ["no value for constant " ++ n.Name], rfl, by simp⟩, ?_⟩
        simp
      | some obj =>
        simp only
        obtain ⟨hg, hf⟩ := ih { r with values := r.values ++ [⟨n.Name, obj.Str, obj.ExactStr, obj.Kind⟩] }
        constructor
        · obtain ⟨e, he, hv⟩ := hg.more
          refine ⟨hg.pkgName, hg.typeName, hg.repTypeName, e, he, ?_⟩
          intro h0
          rw [hv h0]
          simp [nonBlankNames, hb]
        · exact hf

theorem nextTypeName_none {s : ValueSpec} {cur : String} (h : nextTypeName s cur = none) :
    hasQualifiedType s = true ∧ rememberedType cur s = cur := by
  unfold nextTypeName at h
  unfold hasQualifiedType rememberedType
  split at h <;> simp_all
  split at h <;> simp_all

theorem nextTypeName_some {s : ValueSpec} {cur c : String} (h : nextTypeName s cur = some c) :
    hasQualifiedType s = false ∧ rememberedType cur s = c := by
  unfold nextTypeName at h
  unfold hasQualifiedType rememberedType
  split at h
  · simp_all
  · simp_all
  · rename_i hnone
    simp only [hnone, true_and]
    by_cases hv : s.Values = []
    · simp_all
    · have hpos : s.Values.length > 0 := List.length_pos.mpr hv
      simp_all

theorem classifiedNames_nil (T prev : String) : classifiedNames T prev [] = [] := by
  simp [classifiedNames, classifiedSpecs, rememberedTypes]

theorem classifiedNames_cons (T prev : String) (s : ValueSpec) (rest : List ValueSpec) :
    classifiedNames T prev (s :: rest) =
      (if hasQualifiedType s = false ∧ rememberedType prev s = T then nonBlankNames s.Names else [])
        ++ classifiedNames T (rememberedType prev s) rest := by
  by_cases h : hasQualifiedType s = false ∧ rememberedType prev s = T
  · simp [classifiedNames, classifiedSpecs, rememberedTypes, List.filter_cons, h.1, h.2]
  · rw [if_neg h]
    have : (!hasQualifiedType s && rememberedType prev s == T) = false := by
      rcases Bool.eq_false_or_eq_true (hasQualifiedType s) with hq | hq
      · simp [hq]
      · simp only [hq, true_and] at h
        simp [hq, h]
    simp [classifiedNames, classifiedSpecs, rememberedTypes, List.filter_cons, this]

theorem genDeclSpecs_grows (defs : Defs) (specs : List ValueSpec) (cur : String) (r : FileRunner) :
    Grows r (genDeclSpecs defs specs cur r) (classifiedNames r.typeName cur specs) := by
  induction specs generalizing cur r with
  | nil =>
    rw [classifiedNames_nil]
    exact Grows.refl r
  | cons s rest ih =>
    unfold genDeclSpecs
    rw [classifiedNames_cons]
    cases hn : nextTypeName s cur with
    | none =>
      obtain ⟨hq, hr⟩ := nextTypeName_none hn
      simp only [hq, hr, Bool.true_eq_false, false_and, if_false, List.nil_append]
      exact ih cur r
    | some c =>
      obtain ⟨hq, hr⟩ := nextTypeName_some hn
      simp only [hq, hr, true_and]
      by_cases hc : c = r.typeName
      · simp only [hc, ne_eq, not_true_eq_false, if_false, if_true]
        obtain ⟨hg, hf⟩ := genDeclNames_grows defs s.Names r
        cases hres : genDeclNames defs s.Names r with
        | mk r1 flag =>
          rw [hres] at hg hf
          cases flag with
          | true =>
            simp only
            exact Grows.of_error _ hg (hf.mp rfl)
          | false =>
            simp only
            have h2 := ih r.typeName r1
            rw [hg.typeName] at h2
            exact Grows.trans hg h2
      · simp only [ne_eq, hc, not_false_eq_true, if_true, if_false, List.nil_append]
        exact ih c r

mutual

/-- The walk of a node with `genDecl` continues the runner with the classified
names of the const blocks below the node. -/
theorem Inspect_genDecl_grows (defs : Defs) : ∀ (n : Node) (r : FileRunner),
    Grows r (Inspect (genDecl defs) n r)
      ((constBlocks n).flatMap (classifiedNames r.typeName ""))
  | .constDecl specs, r => by
    simp only [Inspect, genDecl, constBlocks, List.flatMap_cons, List.flatMap_nil,
      List.append_nil]
    exact genDeclSpecs_grows defs specs "" r
  | .other cs, r => by
    simp only [Inspect, genDecl, constBlocks, if_true]
    exact InspectList_genDecl_grows defs cs r

/-- The same for the walk of a list of nodes. -/
theorem InspectList_genDecl_grows (defs : Defs) : ∀ (ns : List Node) (r : FileRunner),
    Grows r (InspectList (genDecl defs) ns r)
      ((constBlocksOfList ns).flatMap (classifiedNames r.typeName ""))
  | [], r => by
    simp only [InspectList, constBlocksOfList, List.flatMap_nil]
    exact Grows.refl r
  | n :: ns, r => by
    simp only [InspectList, constBlocksOfList, List.flatMap_append]
    have h1 := Inspect_genDecl_grows defs n r
    have h2 := InspectList_genDecl_grows defs ns (Inspect (genDecl defs) n r)
    rw [h1.typeName] at h2
    exact Grows.trans h1 h2

end

/-- The scan of a file from a reset runner: without error, the names of the
values are the names the rule classifies in the file. -/
theorem InspectFile_names (defs : Defs) (file : AstFile) (r : FileRunner)
    (h : (InspectFile (genDecl defs) file r.ResetForLoop).HasError = false) :
    (InspectFile (genDecl defs) file r.ResetForLoop).values.map Value.Name =
      fileClassifiedNames r.typeName file := by
  have hg := InspectList_genDecl_grows defs file.Decls r.ResetForLoop
  obtain ⟨e, he, hv⟩ := hg.more
  unfold InspectFile at h ⊢
  have he0 : e = [] := by
    simp only [FileRunner.HasError, Bool.not_eq_false', List.isEmpty_iff] at h
    rw [h] at he
    simpa [FileRunner.ResetForLoop] using he.symm
  have := hv he0
  simpa [FileRunner.ResetForLoop, fileClassifiedNames] using this

theorem InspectFile_request (defs : Defs) (file : AstFile) (r : FileRunner) :
    (InspectFile (genDecl defs) file r.ResetForLoop).pkgName = r.pkgName ∧
    (InspectFile (genDecl defs) file r.ResetForLoop).typeName = r.typeName := by
  have hg := InspectList_genDecl_grows defs file.Decls r.ResetForLoop
  exact ⟨hg.pkgName, hg.typeName⟩

theorem Grows.reset {r r1 : FileRunner} {a : List String} (h : Grows r r1 a) :
    r1.ResetForLoop = r.ResetForLoop := by
  cases r
  cases r1
  have h1 := h.pkgName
  have h2 := h.typeName
  have h3 := h.repTypeName
  simp only at h1 h2 h3
  simp [FileRunner.ResetForLoop, h1, h2, h3]

theorem reset_reset (r : FileRunner) : r.ResetForLoop.ResetForLoop = r.ResetForLoop := rfl

theorem reset_pkgName (r : FileRunner) : r.ResetForLoop.pkgName = r.pkgName := rfl

theorem reset_typeName (r : FileRunner) : r.ResetForLoop.typeName = r.typeName := rfl

/-- The runner after the scan of a file resets to the same runner. -/
theorem InspectFile_reset (defs : Defs) (file : AstFile) (r : FileRunner) :
    (InspectFile (genDecl defs) file r.ResetForLoop).ResetForLoop = r.ResetForLoop :=
  (InspectList_genDecl_grows defs file.Decls r.ResetForLoop).reset

/-- The loop skips a file of another package. -/
theorem inspectFiles_skip_pkg (p : Package) (file : File) (rest : List File) (i : Nat)
    (runner : FileRunner) (result : Result) (scanned : List Nat)
    (h : runner.pkgName ≠ file.pkg.name p) :
    inspectFiles p (file :: rest) i runner result scanned =
      inspectFiles p rest (i + 1) runner result scanned := by
  rw [inspectFiles, if_pos h]

/-- The loop skips a file without syntax tree. -/
theorem inspectFiles_skip_nil (p : Package) (file : File) (rest : List File) (i : Nat)
    (runner : FileRunner) (result : Result) (scanned : List Nat)
    (h : file.file = none) :
    inspectFiles p (file :: rest) i runner result scanned =
      inspectFiles p rest (i + 1) runner result scanned := by
  rw [inspectFiles, h]
  simp

/-- The loop stops at a file whose scan ends with an error. -/
theorem inspectFiles_stop (p : Package) (file : File) (rest : List File) (i : Nat)
    (runner : FileRunner) (result : Result) (scanned : List Nat) (astFile : AstFile)
    (hp : runner.pkgName = file.pkg.name p) (hf : file.file = some astFile)
    (he : (InspectFile (genDecl (file.pkg.defs p)) astFile runner.ResetForLoop).HasError = true) :
    inspectFiles p (file :: rest) i runner result scanned =
      (result,
        some (InspectFile (genDecl (file.pkg.defs p)) astFile runner.ResetForLoop).multiErr,
        scanned ++ [i]) := by
  rw [inspectFiles, hf]
  simp [hp, he]

/-- The loop goes on after a file whose scan ends without error. -/
theorem inspectFiles_next (p : Package) (file : File) (rest : List File) (i : Nat)
    (runner : FileRunner) (result : Result) (scanned : List Nat) (astFile : AstFile)
    (hp : runner.pkgName = file.pkg.name p) (hf : file.file = some astFile)
    (he : (InspectFile (genDecl (file.pkg.defs p)) astFile runner.ResetForLoop).HasError = false) :
    inspectFiles p (file :: rest) i runner result scanned =
      inspectFiles p rest (i + 1)
        (InspectFile (genDecl (file.pkg.defs p)) astFile runner.ResetForLoop)
        { result with
          Values := result.Values ++
            (InspectFile (genDecl (file.pkg.defs p)) astFile runner.ResetForLoop).values }
        (scanned ++ [i]) := by
  rw [inspectFiles, hf]
  simp [hp, he]

/-- The loop over the files keeps the header of the result. -/
theorem inspectFiles_header (p : Package) (files : List File) (i : Nat) (runner : FileRunner)
    (result : Result) (scanned : List Nat) :
    (inspectFiles p files i runner result scanned).1.PkgName = result.PkgName ∧
    (inspectFiles p files i runner result scanned).1.TypeName = result.TypeName ∧
    (inspectFiles p files i runner result scanned).1.RepTypeName = result.RepTypeName ∧
    (inspectFiles p files i runner result scanned).1.Imports = result.Imports := by
  induction files generalizing i runner result scanned with
  | nil => simp [inspectFiles]
  | cons file rest ih =>
    by_cases hp : runner.pkgName = file.pkg.name p
    · cases hf : file.file with
      | none =>
        rw [inspectFiles_skip_nil p file rest i runner result scanned hf]
        exact ih _ _ _ _
      | some astFile =>
        cases he : (InspectFile (genDecl (file.pkg.defs p)) astFile runner.ResetForLoop).HasError with
        | true =>
          rw [inspectFiles_stop p file rest i runner result scanned astFile hp hf he]
          simp
        | false =>
          rw [inspectFiles_next p file rest i runner result scanned astFile hp hf he]
          exact ih _ _ _ _
    · rw [inspectFiles_skip_pkg p file rest i runner result scanned hp]
      exact ih _ _ _ _

/-- The loop without error: the names of the values are those of the entering
result, followed by the names the rule classifies in the files of the
requested package. -/
theorem inspectFiles_names (p : Package) (files : List File) (i : Nat) (runner : FileRunner)
    (result : Result) (scanned : List Nat)
    (h : (inspectFiles p files i runner result scanned).2.1 = none) :
    (inspectFiles p files i runner result scanned).1.Values.map Value.Name =
      result.Values.map Value.Name ++
        ((files.filter (fun f => f.pkg.name p = runner.pkgName)).filterMap File.file).flatMap
          (fileClassifiedNames runner.typeName) := by
  induction files generalizing i runner result scanned with
  | nil => simp [inspectFiles]
  | cons file rest ih =>
    by_cases hp : runner.pkgName = file.pkg.name p
    · cases hf : file.file with
      | none =>
        rw [inspectFiles_skip_nil p file rest i runner result scanned hf] at h ⊢
        rw [ih _ _ _ _ h]
        simp [List.filter_cons, hp.symm, hf]
      | some astFile =>
        cases he : (InspectFile (genDecl (file.pkg.defs p)) astFile runner.ResetForLoop).HasError with
        | true =>
          rw [inspectFiles_stop p file rest i runner result scanned astFile hp hf he] at h
          simp at h
        | false =>
          rw [inspectFiles_next p file rest i runner result scanned astFile hp hf he] at h ⊢
          rw [ih _ _ _ _ h]
          obtain ⟨hq1, hq2⟩ := InspectFile_request (file.pkg.defs p) astFile runner
          rw [hq1, hq2]
          simp [List.filter_cons, hp.symm, hf, InspectFile_names _ _ _ he]
    · rw [inspectFiles_skip_pkg p file rest i runner result scanned hp] at h ⊢
      rw [ih _ _ _ _ h]
      have hp2 : ¬ file.pkg.name p = runner.pkgName := fun e => hp e.symm
      simp [List.filter_cons, hp2]

/-- What a call of `inspect` that returns no error went through. -/
theorem inspect_of_ok (p : Package) (typeName : String)
    (h : (inspect p typeName).err = none) :
    ∃ runner, newRunner p typeName = some runner ∧ p.files ≠ [] ∧
      (inspectFiles p p.files 0 runner (newResult runner) []).2.1 = none ∧
      (inspectFiles p p.files 0 runner (newResult runner) []).1.Values ≠ [] ∧
      (inspect p typeName).result =
        { (inspectFiles p p.files 0 runner (newResult runner) []).1 with
          Imports := (inspectFiles p p.files 0 runner (newResult runner) []).1.Imports
            ++ p.imports } ∧
      (inspect p typeName).scanned =
        (inspectFiles p p.files 0 runner (newResult runner) []).2.2 := by
  unfold inspect at h ⊢
  by_cases hf : p.files.length = 0
  · simp [hf] at h
  · simp only [hf, if_false] at h ⊢
    cases hn : newRunner p typeName with
    | none => simp [hn] at h
    | some runner =>
      simp only [hn] at h ⊢
      refine ⟨runner, rfl, ?_⟩
      rcases hl : inspectFiles p p.files 0 runner (newResult runner) [] with ⟨result, err, scanned⟩
      simp only [hl] at h ⊢
      cases err with
      | some e => simp at h
      | none =>
        simp only at h ⊢
        by_cases hv : result.Values.length = 0
        · simp [hv] at h
        · simp only [hv, if_false]
          refine ⟨?_, ?_⟩
          · intro h0
            simp [h0] at hf
          · simp only [and_true, true_and]
            intro h0
            simp [h0] at hv

/-- The names of the values of a call of `inspect` that returns no error. -/
theorem inspect_names_of_ok (p : Package) (typeName : String)
    (runner : FileRunner) (hr : newRunner p typeName = some runner)
    (hok : (inspect p typeName).err = none) :
    (inspect p typeName).result.Values.map Value.Name =
      packageClassifiedNames p runner.pkgName runner.typeName := by
  obtain ⟨r, hr1, _, hnone, _, hres, _⟩ := inspect_of_ok p typeName hok
  rw [hr] at hr1
  cases hr1
  have hn := inspectFiles_names p p.files 0 runner (newResult runner) [] hnone
  rw [hres]
  simpa [newResult, packageClassifiedNames] using hn

/-- C1. When `inspect` succeeds, the names of `Result.Values` are exactly the
non-blank names of the const specs that the remembered-type rule classifies as
the requested type, in source order within each file and with the files of the
requested package taken in loaded order, each name once; and the number of
values is the number of those names. -/
theorem inspect_values_are_classified_names (p : Package) (typeName : String)
    (runner : FileRunner) (hr : newRunner p typeName = some runner)
    (hok : (inspect p typeName).err = none) :
    (inspect p typeName).result.Values.map Value.Name =
      packageClassifiedNames p runner.pkgName runner.typeName ∧
    (inspect p typeName).result.Values.length =
      (packageClassifiedNames p runner.pkgName runner.typeName).length := by
  have hmain := inspect_names_of_ok p typeName runner hr hok
  refine ⟨hmain, ?_⟩
  rw [← hmain, List.length_map]

/-- C1, on `testdata/dayofweek.go` with the type `DayOfWeek`: the eight
`DayOfWeek_*` names in declaration order. -/
theorem inspect_values_are_classified_names_witness :
    (inspect dayOfWeekPackage "DayOfWeek").result.Values.map Value.Name =
      ["DayOfWeek_DAY_OF_WEEK_UNSPECIFIED", "DayOfWeek_MONDAY", "DayOfWeek_TUESDAY",
        "DayOfWeek_WEDNESDAY", "DayOfWeek_THURSDAY", "DayOfWeek_FRIDAY",
        "DayOfWeek_SATURDAY", "DayOfWeek_SUNDAY"] ∧
    (inspect dayOfWeekPackage "DayOfWeek").result.Values.length = 8 :=
  have h := inspect_values_are_classified_names dayOfWeekPackage "DayOfWeek"
    { pkgName := "testdata", typeName := "DayOfWeek", repTypeName := "DayOfWeek",
      values := [], multiErr := [] } (by decide) (by decide)
  ⟨h.1.trans (by decide), h.2.trans (by decide)⟩

/-- C3. `inspect` never returns an empty result without an error: when it
returns no error the values are not empty, and when the rule classifies no
constant of the requested package as the requested type it returns an
error. -/
theorem inspect_never_empty_ok (p : Package) (typeName : String) :
    ((inspect p typeName).err = none → (inspect p typeName).result.Values ≠ []) ∧
    ((∀ runner, newRunner p typeName = some runner →
        packageClassifiedNames p runner.pkgName runner.typeName = []) →
      (inspect p typeName).err ≠ none) := by
  have h1 : (inspect p typeName).err = none → (inspect p typeName).result.Values ≠ [] := by
    intro hok
    obtain ⟨r, _, _, _, hv, hres, _⟩ := inspect_of_ok p typeName hok
    rw [hres]
    exact hv
  refine ⟨h1, ?_⟩
  intro hnone hok
  obtain ⟨r, hr, _, _, _, _, _⟩ := inspect_of_ok p typeName hok
  have hn := inspect_names_of_ok p typeName r hr hok
  rw [hnone r hr] at hn
  exact h1 hok (List.map_eq_nil_iff.mp hn)

/-- C3, on `testdata/dayofweek.go`: the type `DayOfWeek` gives values, and the
type `Month`, which has no constant there, gives an error. -/
theorem inspect_never_empty_ok_witness :
    (inspect dayOfWeekPackage "DayOfWeek").result.Values ≠ [] ∧
    (inspect dayOfWeekPackage "Month").err ≠ none :=
  ⟨(inspect_never_empty_ok dayOfWeekPackage "DayOfWeek").1 (by decide),
    (inspect_never_empty_ok dayOfWeekPackage "Month").2 (by
      intro r hr
      have h : newRunner dayOfWeekPackage "Month" =
          some ⟨"testdata", "Month", "Month", [], []⟩ := by decide
      rw [h] at hr
      cases hr
      decide)⟩

/-! ## The typed spec and its bare run (C2) -/

/-- The loop over the names of a spec, when every non-blank name resolves:
every such name gives a value, and the loop ends without `return false`. -/
theorem genDeclNames_resolved (defs : Defs) (names : List Ident) (r : FileRunner)
    (h : ∀ n ∈ names, n.Name ≠ "_" → defs.lookup n.ptr ≠ none) :
    genDeclNames defs names r = ({ r with values := r.values ++ resolved defs names }, false) := by
  induction names generalizing r with
  | nil => simp [genDeclNames, resolved]
  | cons n rest ih =>
    have hrest : ∀ m ∈ rest, m.Name ≠ "_" → defs.lookup m.ptr ≠ none :=
      fun m hm => h m (List.mem_cons_of_mem _ hm)
    unfold genDeclNames
    by_cases hb : n.Name = "_"
    · simp only [hb, if_true]
      rw [ih r hrest]
      simp [resolved, hb]
    · simp only [hb, if_false]
      cases hl : defs.lookup n.ptr with
      | none => exact absurd hl (h n (List.mem_cons_self _ _) hb)
      | some obj =>
        simp only
        rw [ih _ hrest]
        simp [resolved, hb, hl]

/-- The names of the values made for resolving names are the non-blank names. -/
theorem resolved_names (defs : Defs) (names : List Ident)
    (h : ∀ n ∈ names, n.Name ≠ "_" → defs.lookup n.ptr ≠ none) :
    (resolved defs names).map Value.Name = nonBlankNames names := by
  induction names with
  | nil => simp [resolved, nonBlankNames]
  | cons n rest ih =>
    have hrest : ∀ m ∈ rest, m.Name ≠ "_" → defs.lookup m.ptr ≠ none :=
      fun m hm => h m (List.mem_cons_of_mem _ hm)
    have ih1 := ih hrest
    simp only [resolved, nonBlankNames] at ih1 ⊢
    by_cases hb : n.Name = "_"
    · simp [List.filterMap_cons, hb, ih1]
    · cases hl : defs.lookup n.ptr with
      | none => exact absurd hl (h n (List.mem_cons_self _ _) hb)
      | some obj => simp [List.filterMap_cons, hb, hl, ih1]

/-- The same for the specs of a list. -/
theorem resolved_names_of_specs (defs : Defs) (specs : List ValueSpec)
    (h : ∀ x ∈ specs, ∀ n ∈ x.Names, n.Name ≠ "_" → defs.lookup n.ptr ≠ none) :
    (specs.flatMap (fun x => resolved defs x.Names)).map Value.Name =
      specs.flatMap (fun x => nonBlankNames x.Names) := by
  induction specs with
  | nil => simp
  | cons y ys ih =>
    simp only [List.flatMap_cons, List.map_append]
    rw [resolved_names defs y.Names (h y (List.mem_cons_self _ _)),
      ih (fun z hz => h z (List.mem_cons_of_mem _ hz))]

/-- A run of bare specs entered with the requested type as remembered type:
every non-blank name is emitted, and the remembered type stays. -/
theorem genDeclSpecs_bare_run (defs : Defs) (run rest : List ValueSpec) (r : FileRunner)
    (hrun : ∀ x ∈ run, x.Type_ = none ∧ x.Values = [])
    (hres : ∀ x ∈ run, ∀ n ∈ x.Names, n.Name ≠ "_" → defs.lookup n.ptr ≠ none) :
    genDeclSpecs defs (run ++ rest) r.typeName r =
      genDeclSpecs defs rest r.typeName
        { r with values := r.values ++ run.flatMap (fun x => resolved defs x.Names) } := by
  induction run generalizing r with
  | nil => simp
  | cons x xs ih =>
    have hx := hrun x (List.mem_cons_self _ _)
    have hn : nextTypeName x r.typeName = some r.typeName := by
      simp [nextTypeName, hx.1, hx.2]
    rw [List.cons_append, genDeclSpecs]
    simp only [hn, ne_eq, not_true_eq_false, if_false]
    rw [genDeclNames_resolved defs x.Names r (hres x (List.mem_cons_self _ _))]
    simp only
    have := ih { r with values := r.values ++ resolved defs x.Names }
      (fun y hy => hrun y (List.mem_cons_of_mem _ hy))
      (fun y hy => hres y (List.mem_cons_of_mem _ hy))
    simp only at this
    rw [this]
    simp [List.flatMap_cons, List.append_assoc]

/-- The rule classifies a run of bare specs entered with the remembered type
`T` as `T`. -/
theorem classifiedSpecs_bare_run (T : String) (run : List ValueSpec)
    (hrun : ∀ x ∈ run, x.Type_ = none ∧ x.Values = []) :
    classifiedSpecs T T run = run := by
  induction run with
  | nil => simp [classifiedSpecs, rememberedTypes]
  | cons x xs ih =>
    have hx := hrun x (List.mem_cons_self _ _)
    have hr : rememberedType T x = T := by simp [rememberedType, hx.1, hx.2]
    have hq : hasQualifiedType x = false := by simp [hasQualifiedType, hx.1]
    have ih1 := ih (fun y hy => hrun y (List.mem_cons_of_mem _ hy))
    simp only [classifiedSpecs] at ih1 ⊢
    simp [rememberedTypes, List.filter_cons, hr, hq, ih1]

/-- C2, as amended. In a const block scanned for the bare type `T`, a spec that
carries the explicit simple-identifier type `T` and the bare specs that follow
it (no type, no initializer) are all classified as `T`; when the scan reaches
them and each of their non-blank names resolves in the symbol table, these
names are all emitted, in order, and the scan goes on after the run with `T`
still remembered, so the run ends only at a spec that gives a new type or an
initializer without type. -/
theorem genDeclSpecs_typed_run (defs : Defs) (T : String) (s : ValueSpec)
    (run rest : List ValueSpec) (cur : String) (r : FileRunner)
    (hs : s.Type_ = some (Expr.ident T))
    (hrun : ∀ x ∈ run, x.Type_ = none ∧ x.Values = [])
    (hT : r.typeName = T)
    (hres : ∀ x ∈ s :: run, ∀ n ∈ x.Names, n.Name ≠ "_" → defs.lookup n.ptr ≠ none) :
    classifiedSpecs T cur (s :: run) = s :: run ∧
    genDeclSpecs defs (s :: run ++ rest) cur r =
      genDeclSpecs defs rest T
        { r with values := r.values ++ (s :: run).flatMap (fun x => resolved defs x.Names) } ∧
    ((s :: run).flatMap (fun x => resolved defs x.Names)).map Value.Name =
      (s :: run).flatMap (fun x => nonBlankNames x.Names) := by
  subst hT
  refine ⟨?_, ?_, ?_⟩
  · have hr : rememberedType cur s = r.typeName := by simp [rememberedType, hs]
    have hq : hasQualifiedType s = false := by simp [hasQualifiedType, hs]
    have h2 := classifiedSpecs_bare_run r.typeName run hrun
    simp only [classifiedSpecs] at h2 ⊢
    simp [rememberedTypes, List.filter_cons, hr, hq, h2]
  · have hn : nextTypeName s cur = some r.typeName := by simp [nextTypeName, hs]
    rw [List.cons_append, genDeclSpecs]
    simp only [hn, ne_eq, not_true_eq_false, if_false]
    rw [genDeclNames_resolved defs s.Names r (hres s (List.mem_cons_self _ _))]
    simp only
    have := genDeclSpecs_bare_run defs run rest
      { r with values := r.values ++ resolved defs s.Names } hrun
      (fun y hy => hres y (List.mem_cons_of_mem _ hy))
    simp only at this
    rw [this]
    simp [List.flatMap_cons, List.append_assoc]
  · exact resolved_names_of_specs defs (s :: run) hres

/-- C2, as amended, on the block `A T = 0; B; C; D T2 = "x"` scanned for `T`:
the run `A`, `B`, `C` is emitted and the scan goes on at `D` with `T`
remembered; the names emitted for the whole block are `A`, `B`, `C`, and `D`
is left out. -/
theorem genDeclSpecs_typed_run_witness :
    classifiedSpecs "T" "" [specA, specB, specC] = [specA, specB, specC] ∧
    genDeclSpecs sampleDefs (specA :: [specB, specC] ++ [specD]) "" (sampleRunner "T") =
      genDeclSpecs sampleDefs [specD] "T"
        { sampleRunner "T" with
          values := (sampleRunner "T").values ++
            (specA :: [specB, specC]).flatMap (fun x => resolved sampleDefs x.Names) } ∧
    (genDecl sampleDefs (.constDecl [specA, specB, specC, specD]) (sampleRunner "T")).1.values.map
      Value.Name = ["A", "B", "C"] :=
  have h := genDeclSpecs_typed_run sampleDefs "T" specA [specB, specC] [specD] ""
    (sampleRunner "T") rfl (by decide) rfl (by decide)
  ⟨h.1, h.2.1, by decide⟩

/-- C2, as stated, fails when a name does not resolve: in the block `A T = 0; B`
scanned for `T`, both specs are classified as `T` and `B` is a non-blank name
with an entry in the symbol table, but `A` has no entry; the scan of the
block stops at `A` and `B` is not emitted. -/
theorem typed_run_cut_short_by_unresolved_name :
    classifiedNames "T" "" [specA, specB] = ["A", "B"] ∧
    (genDecl defsWithoutA (.constDecl [specA, specB]) (sampleRunner "T")).1.values = [] ∧
    (genDecl defsWithoutA (.constDecl [specA, specB]) (sampleRunner "T")).1.multiErr =
      ["no value for constant A"] := by
  decide

/-! ## `addPackage` and imports without a local name (C4) -/

/-- C4, at the failing input. For a primary package whose file declares
`import "fmt"`, `addPackage` does not complete: `fileImp.Name` is nil and line
126 dereferences it. With the aliased `import mathrand "math/rand"` it
completes and records the alias. -/
theorem addPackage_panics_on_plain_import :
    (addPackage ⟨⟨"main", [], [plainImportFile]⟩, []⟩).isNone = true ∧
    (addPackage ⟨⟨"main", [], [aliasImportFile]⟩, []⟩).map Package.imports =
      some [⟨"mathrand", "\"math/rand\"", "", ""⟩] := by
  decide

/-- Whatever the package, an import without a local name in one of its files
makes `addPackage` panic. -/
theorem addImports_none (specs : List ImportSpec) (imports : List Import)
    (h : ∃ fileImp ∈ specs, fileImp.Name = none) : addImports specs imports = none := by
  induction specs generalizing imports with
  | nil => simp at h
  | cons x xs ih =>
    unfold addImports
    cases hx : x.Name with
    | none => rfl
    | some name =>
      simp only
      apply ih
      obtain ⟨y, hy, hn⟩ := h
      rcases List.mem_cons.mp hy with rfl | hy
      · rw [hx] at hn
        cases hn
      · exact ⟨y, hy, hn⟩

/-- The loop over the files of the primary package panics as soon as one of
them declares an import without a local name. -/
theorem addSyntax_none (files : List AstFile) (imports : List Import) (acc : List File)
    (h : ∃ file ∈ files, ∃ fileImp ∈ file.Imports, fileImp.Name = none) :
    addSyntax files imports acc = none := by
  induction files generalizing imports acc with
  | nil => simp at h
  | cons x xs ih =>
    unfold addSyntax
    cases hx : addImports x.Imports imports with
    | none => rfl
    | some imports1 =>
      simp only
      apply ih
      obtain ⟨file, hfile, himp⟩ := h
      rcases List.mem_cons.mp hfile with rfl | hfile
      · rw [addImports_none _ _ himp] at hx
        cases hx
      · exact ⟨file, hfile, himp⟩

/-- Whatever the primary package, `addPackage` panics when one of its files
declares an import without a local name. -/
theorem addPackage_none (pkg : PrimaryPackage)
    (h : ∃ file ∈ pkg.Syntax, ∃ fileImp ∈ file.Imports, fileImp.Name = none) :
    addPackage pkg = none := by
  unfold addPackage
  rw [addSyntax_none _ _ _ h]

/-! ## Const blocks below other declarations (C5) -/

theorem mem_constBlocksOfList {block : List ValueSpec} {n : Node} {cs : List Node}
    (hn : n ∈ cs) (hb : block ∈ constBlocks n) : block ∈ constBlocksOfList cs := by
  induction cs with
  | nil => simp at hn
  | cons c rest ih =>
    simp only [constBlocksOfList, List.mem_append]
    rcases List.mem_cons.mp hn with rfl | hn
    · exact Or.inl hb
    · exact Or.inr (ih hn)

/-- A const block that occurs below a node is among the const blocks listed
for the node. -/
theorem Within.mem_constBlocks {block : List ValueSpec} {n : Node} (h : Within block n) :
    block ∈ constBlocks n := by
  induction h with
  | here => simp [constBlocks]
  | inside cs n hn _ ih =>
    simp only [constBlocks]
    exact mem_constBlocksOfList hn ih

/-- C5, as stated, fails: in `package main; func f() { const X T = 1 }` the
const declaration is inside a function body, and `inspect` for `T` succeeds
with the value `X`. -/
theorem nested_const_is_scanned :
    (inspect nestedPackage "T").err = none ∧
    (inspect nestedPackage "T").result.Values.map Value.Name = ["X"] := by
  decide

/-- C5, as amended. Every const block of a scanned file contributes to the
scan, the top-level ones and those nested at any depth below another
declaration (a function body, for one): when `inspect` succeeds, every
non-blank name of a spec that the rule classifies as the requested type in
such a block is the name of a value of the result. -/
theorem const_blocks_at_any_depth_are_scanned (p : Package) (typeName : String)
    (runner : FileRunner) (file : File) (astFile : AstFile) (decl : Node)
    (block : List ValueSpec) (x : String)
    (hr : newRunner p typeName = some runner)
    (hok : (inspect p typeName).err = none)
    (hfile : file ∈ p.files) (hpkg : file.pkg.name p = runner.pkgName)
    (hast : file.file = some astFile)
    (hdecl : decl ∈ astFile.Decls) (hin : Within block decl)
    (hx : x ∈ classifiedNames runner.typeName "" block) :
    x ∈ (inspect p typeName).result.Values.map Value.Name := by
  rw [inspect_names_of_ok p typeName runner hr hok]
  simp only [packageClassifiedNames, List.mem_flatMap, List.mem_filterMap, List.mem_filter]
  refine ⟨astFile, ⟨file, ⟨hfile, by simpa using hpkg⟩, hast⟩, ?_⟩
  simp only [fileClassifiedNames, List.mem_flatMap]
  exact ⟨block, mem_constBlocksOfList hdecl hin.mem_constBlocks, hx⟩

/-- C5, as amended, on `package main; func f() { const X T = 1 }`. -/
theorem const_blocks_at_any_depth_are_scanned_witness :
    "X" ∈ (inspect nestedPackage "T").result.Values.map Value.Name :=
  const_blocks_at_any_depth_are_scanned nestedPackage "T" (sampleRunner "T")
    { pkg := .primary, file := some nestedFile } nestedFile
    (.other [ .other [], .other [],
      .other [ .other [ .constDecl [⟨[⟨0, "X"⟩], some (.ident "T"), [.basicLit "1"]⟩] ] ] ])
    [⟨[⟨0, "X"⟩], some (.ident "T"), [.basicLit "1"]⟩] "X"
    (by decide) (by decide) (by simp [nestedPackage]) rfl rfl (by simp [nestedFile])
    (Within.inside _ _ (by simp) (Within.inside _ _ (List.mem_singleton.mpr rfl)
      (Within.inside _ _ (List.mem_singleton.mpr rfl) Within.here)))
    (by decide)

/-! ## A stale remembered type (C6) and the empty type name (C7) -/

/-- C6, at the failing input. In the block `A T = 0; B pkg.U = 1; C` scanned
for `T`, the scanner emits `A` and `C`; the effective type of the bare spec
`C` is `pkg.U`, the type of the nearest preceding spec with an initializer,
not the identifier `T`. -/
theorem stale_type_emits_foreign_constant :
    (genDecl sampleDefs (.constDecl staleBlock) (sampleRunner "T")).1.values.map Value.Name =
      ["A", "C"] ∧
    effectiveType [specA, specSelector] specC = some (Expr.selector "pkg" "U") ∧
    effectiveType [specA, specSelector] specC ≠ some (Expr.ident "T") := by
  decide

/-- C7, at the failing input. `inspect` accepts the type names `""` and
`"main."`, whose bare part is empty; the spec `X = 1` has no type and an
initializer, it empties the remembered type, which then equals the requested
bare name, and `X` is emitted. -/
theorem untyped_constant_emitted_for_empty_name :
    (inspect untypedPackage "").err = none ∧
    (inspect untypedPackage "").result.Values.map Value.Name = ["X"] ∧
    (inspect untypedPackage "main.").err = none ∧
    (inspect untypedPackage "main.").result.Values.map Value.Name = ["X"] := by
  decide

/-- For a requested bare name that is not empty, a spec without type and with
initializer expressions is skipped, whatever type was remembered before. -/
theorem genDeclSpecs_untyped_skipped (defs : Defs) (s : ValueSpec) (rest : List ValueSpec)
    (cur : String) (r : FileRunner) (ht : s.Type_ = none) (hv : s.Values ≠ [])
    (hT : r.typeName ≠ "") :
    genDeclSpecs defs (s :: rest) cur r = genDeclSpecs defs rest "" r := by
  have hpos : s.Values.length > 0 := List.length_pos.mpr hv
  have hn : nextTypeName s cur = some "" := by simp [nextTypeName, ht, hpos]
  rw [genDeclSpecs]
  simp only [hn]
  rw [if_pos (fun h => hT h.symm)]

/-! ## A name without entry in the symbol table (C8) -/

theorem Grows.le {r r1 : FileRunner} {a : List String} (h : Grows r r1 a) :
    r.multiErr.length ≤ r1.multiErr.length := by
  obtain ⟨e, he, _⟩ := h.more
  rw [he, List.length_append]
  exact Nat.le_add_right _ _

theorem Grows.lt_of_ne {r r1 : FileRunner} {a : List String} (h : Grows r r1 a)
    (hne : r1.multiErr ≠ r.multiErr) : r.multiErr.length < r1.multiErr.length := by
  obtain ⟨e, he, _⟩ := h.more
  cases e with
  | nil =>
    simp at he
    exact absurd he hne
  | cons x xs =>
    rw [he, List.length_append, List.length_cons]
    omega

/-- A non-blank name without entry makes the loop over the names leave through
`return false`. -/
theorem genDeclNames_unresolved (defs : Defs) (names : List Ident) (r : FileRunner)
    (h : ∃ n ∈ names, n.Name ≠ "_" ∧ defs.lookup n.ptr = none) :
    (genDeclNames defs names r).2 = true := by
  induction names generalizing r with
  | nil => simp at h
  | cons m rest ih =>
    obtain ⟨n, hn, hb, hl⟩ := h
    unfold genDeclNames
    by_cases hm : m.Name = "_"
    · simp only [hm, if_true]
      rcases List.mem_cons.mp hn with rfl | hn
      · exact absurd hm hb
      · exact ih r ⟨n, hn, hb, hl⟩
    · simp only [hm, if_false]
      cases hml : defs.lookup m.ptr with
      | none => rfl
      | some obj =>
        simp only
        rcases List.mem_cons.mp hn with rfl | hn
        · rw [hl] at hml
          cases hml
        · exact ih _ ⟨n, hn, hb, hl⟩

theorem classifiedSpecs_cons (T prev : String) (s : ValueSpec) (rest : List ValueSpec) :
    classifiedSpecs T prev (s :: rest) =
      (if hasQualifiedType s = false ∧ rememberedType prev s = T then [s] else [])
        ++ classifiedSpecs T (rememberedType prev s) rest := by
  by_cases h : hasQualifiedType s = false ∧ rememberedType prev s = T
  · simp [classifiedSpecs, rememberedTypes, List.filter_cons, h.1, h.2]
  · rw [if_neg h]
    have : (!hasQualifiedType s && rememberedType prev s == T) = false := by
      rcases Bool.eq_false_or_eq_true (hasQualifiedType s) with hq | hq
      · simp [hq]
      · simp only [hq, true_and] at h
        simp [hq, h]
    simp [classifiedSpecs, rememberedTypes, List.filter_cons, this]

/-- The scan of a block that holds a classified spec with an unresolved
non-blank name records an error. -/
theorem genDeclSpecs_records (defs : Defs) (block : List ValueSpec) (cur : String)
    (r : FileRunner) (s : ValueSpec) (n : Ident)
    (hs : s ∈ classifiedSpecs r.typeName cur block) (hn : n ∈ s.Names)
    (hb : n.Name ≠ "_") (hl : defs.lookup n.ptr = none) :
    r.multiErr.length < (genDeclSpecs defs block cur r).multiErr.length := by
  induction block generalizing cur r with
  | nil => simp [classifiedSpecs, rememberedTypes] at hs
  | cons x rest ih =>
    rw [classifiedSpecs_cons] at hs
    unfold genDeclSpecs
    cases hx : nextTypeName x cur with
    | none =>
      obtain ⟨hq, hrem⟩ := nextTypeName_none hx
      simp only [hq, hrem, Bool.true_eq_false, false_and, if_false, List.nil_append] at hs
      exact ih cur r hs
    | some c =>
      obtain ⟨hq, hrem⟩ := nextTypeName_some hx
      simp only [hq, hrem, true_and] at hs
      by_cases hc : c = r.typeName
      · simp only [hc, ne_eq, not_true_eq_false, if_false]
        simp only [hc, if_true, List.singleton_append, List.mem_cons] at hs
        obtain ⟨hg, hf⟩ := genDeclNames_grows defs x.Names r
        cases hres : genDeclNames defs x.Names r with
        | mk r1 flag =>
          rw [hres] at hg hf
          cases flag with
          | true =>
            simp only
            exact hg.lt_of_ne (hf.mp rfl)
          | false =>
            simp only
            rcases hs with rfl | hs
            · have := genDeclNames_unresolved defs s.Names r ⟨n, hn, hb, hl⟩
              rw [hres] at this
              cases this
            · have h2 := ih r.typeName r1 (by rw [hg.typeName]; exact hs)
              exact Nat.lt_of_le_of_lt hg.le h2
      · simp only [ne_eq, hc, not_false_eq_true, if_true]
        simp only [hc, if_false, List.nil_append] at hs
        exact ih c r hs

mutual

/-- The walk of a node below which a block holds an unresolved name records an
error. -/
theorem Inspect_records (defs : Defs) : ∀ (n : Node) (r : FileRunner)
    (block : List ValueSpec), block ∈ constBlocks n → HasUnresolved defs r.typeName block →
    r.multiErr.length < (Inspect (genDecl defs) n r).multiErr.length
  | .constDecl specs, r, block, hb, hu => by
    simp only [constBlocks, List.mem_singleton] at hb
    subst hb
    obtain ⟨s, hs, n, hn, hbl, hl⟩ := hu
    simp only [Inspect, genDecl]
    exact genDeclSpecs_records defs block "" r s n hs hn hbl hl
  | .other cs, r, block, hb, hu => by
    simp only [constBlocks] at hb
    simp only [Inspect, genDecl, if_true]
    exact InspectList_records defs cs r block hb hu

/-- The same for the walk of a list of nodes. -/
theorem InspectList_records (defs : Defs) : ∀ (ns : List Node) (r : FileRunner)
    (block : List ValueSpec), block ∈ constBlocksOfList ns →
    HasUnresolved defs r.typeName block →
    r.multiErr.length < (InspectList (genDecl defs) ns r).multiErr.length
  | [], r, block, hb, _ => by
    simp [constBlocksOfList] at hb
  | n :: ns, r, block, hb, hu => by
    simp only [constBlocksOfList, List.mem_append] at hb
    simp only [InspectList]
    have h1 := Inspect_genDecl_grows defs n r
    have h2 := InspectList_genDecl_grows defs ns (Inspect (genDecl defs) n r)
    rcases hb with hb | hb
    · exact Nat.lt_of_lt_of_le (Inspect_records defs n r block hb hu) h2.le
    · have hu2 : HasUnresolved defs (Inspect (genDecl defs) n r).typeName block := by
        rw [h1.typeName]
        exact hu
      exact Nat.lt_of_le_of_lt h1.le
        (InspectList_records defs ns (Inspect (genDecl defs) n r) block hb hu2)

end

/-- The scan of a file in which a block holds an unresolved name ends with an
error. -/
theorem InspectFile_hasError (defs : Defs) (file : AstFile) (r : FileRunner)
    (block : List ValueSpec) (hb : block ∈ constBlocksOfList file.Decls)
    (hu : HasUnresolved defs r.typeName block) :
    (InspectFile (genDecl defs) file r.ResetForLoop).HasError = true := by
  have h := InspectList_records defs file.Decls r.ResetForLoop block hb hu
  unfold InspectFile
  cases hm : (InspectList (genDecl defs) file.Decls r.ResetForLoop).multiErr with
  | nil =>
    rw [hm] at h
    simp at h
  | cons x xs => simp [FileRunner.HasError, hm]

/-- The loop over the files, when the scan of the file after `pre` ends with
an error: the loop is left with an error, at that file or before. -/
theorem inspectFiles_stops (p : Package) (pre : List File) (file : File) (post : List File)
    (astFile : AstFile) (i : Nat) (runner : FileRunner) (result : Result) (scanned : List Nat)
    (hp : runner.pkgName = file.pkg.name p) (hf : file.file = some astFile)
    (he : (InspectFile (genDecl (file.pkg.defs p)) astFile runner.ResetForLoop).HasError = true) :
    (∃ errs, errs ≠ [] ∧
      (inspectFiles p (pre ++ file :: post) i runner result scanned).2.1 = some errs) ∧
    ∀ j ∈ (inspectFiles p (pre ++ file :: post) i runner result scanned).2.2,
      j ∈ scanned ∨ j ≤ i + pre.length := by
  induction pre generalizing i runner result scanned with
  | nil =>
    rw [List.nil_append, inspectFiles_stop p file post i runner result scanned astFile hp hf he]
    refine ⟨⟨_, ?_, rfl⟩, ?_⟩
    · intro h0
      simp [FileRunner.HasError, h0] at he
    · intro j hj
      simp only [List.mem_append, List.mem_singleton] at hj
      rcases hj with hj | hj
      · exact Or.inl hj
      · exact Or.inr (by simp [hj])
  | cons g rest ih =>
    rw [List.cons_append]
    have step : ∀ (runner1 : FileRunner) (result1 : Result) (scanned1 : List Nat),
        runner1.pkgName = runner.pkgName → runner1.ResetForLoop = runner.ResetForLoop →
        (∀ j ∈ scanned1, j ∈ scanned ∨ j ≤ i) →
        (∃ errs, errs ≠ [] ∧
          (inspectFiles p (rest ++ file :: post) (i + 1) runner1 result1 scanned1).2.1
            = some errs) ∧
        ∀ j ∈ (inspectFiles p (rest ++ file :: post) (i + 1) runner1 result1 scanned1).2.2,
          j ∈ scanned ∨ j ≤ i + (g :: rest).length := by
      intro runner1 result1 scanned1 h1 h2 h3
      obtain ⟨ha, hb⟩ := ih (i + 1) runner1 result1 scanned1 (h1.trans hp) (by rw [h2]; exact he)
      refine ⟨ha, ?_⟩
      intro j hj
      rcases hb j hj with hj | hj
      · rcases h3 j hj with h | h
        · exact Or.inl h
        · exact Or.inr (by simp only [List.length_cons]; omega)
      · exact Or.inr (by simp only [List.length_cons]; omega)
    by_cases hgp : runner.pkgName = g.pkg.name p
    · cases hgf : g.file with
      | none =>
        rw [inspectFiles_skip_nil p g _ i runner result scanned hgf]
        exact step runner result scanned rfl rfl (fun j hj => Or.inl hj)
      | some gAst =>
        cases hge : (InspectFile (genDecl (g.pkg.defs p)) gAst runner.ResetForLoop).HasError with
        | true =>
          rw [inspectFiles_stop p g _ i runner result scanned gAst hgp hgf hge]
          refine ⟨⟨_, ?_, rfl⟩, ?_⟩
          · intro h0
            simp [FileRunner.HasError, h0] at hge
          · intro j hj
            simp only [List.mem_append, List.mem_singleton] at hj
            rcases hj with hj | hj
            · exact Or.inl hj
            · exact Or.inr (by rw [hj]; exact Nat.le_add_right _ _)
        | false =>
          rw [inspectFiles_next p g _ i runner result scanned gAst hgp hgf hge]
          refine step _ _ _ (InspectFile_request _ _ _).1 (InspectFile_reset _ _ _) ?_
          intro j hj
          simp only [List.mem_append, List.mem_singleton] at hj
          rcases hj with hj | hj
          · exact Or.inl hj
          · exact Or.inr (by rw [hj])
    · rw [inspectFiles_skip_pkg p g _ i runner result scanned hgp]
      exact step runner result scanned rfl rfl (fun j hj => Or.inl hj)

/-- The call of `inspect` once the type name is accepted and the file set is
not empty. -/
theorem inspect_of_runner (p : Package) (typeName : String) (runner : FileRunner)
    (hr : newRunner p typeName = some runner) (hfiles : p.files ≠ []) :
    (inspect p typeName).scanned =
      (inspectFiles p p.files 0 runner (newResult runner) []).2.2 ∧
    (∀ errs, (inspectFiles p p.files 0 runner (newResult runner) []).2.1 = some errs →
      (inspect p typeName).err = some (.inspectionFailed errs) ∧
      (inspect p typeName).result = (inspectFiles p p.files 0 runner (newResult runner) []).1) := by
  have hlen : ¬ p.files.length = 0 := by
    intro h
    exact hfiles (List.length_eq_zero.mp h)
  unfold inspect
  simp only [hlen, if_false, hr]
  rcases hl : inspectFiles p p.files 0 runner (newResult runner) [] with ⟨result, err, scanned⟩
  cases err with
  | some e =>
    simp only
    refine ⟨trivial, ?_⟩
    intro errs h
    cases h
    simp
  | none =>
    simp only
    constructor
    · split <;> rfl
    · intro errs h
      cases h

/-- C8, as stated, fails. In the package made of the files
`const A T = 0; const B T = 1` and `const C T = 2`, the name `A` has no entry
in the symbol table. `inspect` for `T` returns the error "inspection failed"
right after the first file and never scans the second one; and the scan of
the first file went on after the error: the later declaration `B` was
scanned and put among the runner's values. -/
theorem unresolved_name_is_fatal_for_inspect :
    (inspect unresolvedPackage "T").err =
      some (.inspectionFailed ["no value for constant A"]) ∧
    (inspect unresolvedPackage "T").scanned = [0] ∧
    (inspect unresolvedPackage "T").result.Values = [] ∧
    (InspectFile (genDecl defsWithoutA) twoBlockFile (sampleRunner "T")).values.map Value.Name =
      ["B"] := by
  decide

/-- C8, as amended. When a non-blank name of a spec classified as the requested
type has no entry in the symbol table of its file, the scanner records an
error, the scan of that file ends with an error, and `inspect` returns the
error "inspection failed" with the collected messages; no file after that one
is scanned. -/
theorem unresolved_name_fails_inspect (p : Package) (typeName : String) (runner : FileRunner)
    (pre : List File) (file : File) (post : List File) (astFile : AstFile)
    (block : List ValueSpec)
    (hr : newRunner p typeName = some runner)
    (hfiles : p.files = pre ++ file :: post)
    (hpkg : file.pkg.name p = runner.pkgName) (hast : file.file = some astFile)
    (hblock : block ∈ constBlocksOfList astFile.Decls)
    (hu : HasUnresolved (file.pkg.defs p) runner.typeName block) :
    (InspectFile (genDecl (file.pkg.defs p)) astFile runner.ResetForLoop).HasError = true ∧
    (∃ errs, errs ≠ [] ∧ (inspect p typeName).err = some (.inspectionFailed errs)) ∧
    ∀ j ∈ (inspect p typeName).scanned, j ≤ pre.length := by
  have he := InspectFile_hasError (file.pkg.defs p) astFile runner block hblock hu
  have hne : p.files ≠ [] := by
    rw [hfiles]
    simp
  obtain ⟨hsc, herr⟩ := inspect_of_runner p typeName runner hr hne
  obtain ⟨⟨errs, herrs, hsome⟩, hall⟩ :=
    inspectFiles_stops p pre file post astFile 0 runner (newResult runner) [] hpkg.symm hast he
  rw [← hfiles] at hsome hall
  refine ⟨he, ⟨errs, herrs, (herr errs hsome).1⟩, ?_⟩
  intro j hj
  rw [hsc] at hj
  rcases hall j hj with h | h
  · simp at h
  · simpa using h

/-- C8, as amended, on the package whose first file holds the unresolved
name `A`: the error is returned and the second file is not scanned. -/
theorem unresolved_name_fails_inspect_witness :
    (InspectFile (genDecl defsWithoutA) twoBlockFile (sampleRunner "T").ResetForLoop).HasError
      = true ∧
    (∃ errs, errs ≠ [] ∧
      (inspect unresolvedPackage "T").err = some (.inspectionFailed errs)) ∧
    ∀ j ∈ (inspect unresolvedPackage "T").scanned, j ≤ 0 :=
  unresolved_name_fails_inspect unresolvedPackage "T" (sampleRunner "T") []
    { pkg := .primary, file := some twoBlockFile }
    [{ pkg := .primary, file := some laterFile }] twoBlockFile [specA]
    (by decide) rfl rfl rfl (by simp [twoBlockFile, constBlocksOfList, constBlocks])
    ⟨specA, by decide, ⟨0, "A"⟩, by decide, by decide, by decide⟩

/-! ## Splitting the type name (C9, C10) -/

theorem splitDot_ne_nil (cs : List Char) : splitDot cs ≠ [] := by
  cases cs with
  | nil => simp [splitDot]
  | cons c cs =>
    unfold splitDot
    by_cases hc : c = '.'
    · simp [hc]
    · simp only [hc, if_false]
      cases splitDot cs <;> simp

theorem splitDot_no_dot (cs : List Char) (h : '.' ∉ cs) : splitDot cs = [cs] := by
  induction cs with
  | nil => rfl
  | cons c cs ih =>
    simp only [List.mem_cons, not_or] at h
    unfold splitDot
    have hc : ¬ c = '.' := fun e => h.1 e.symm
    simp [hc, ih h.2]

theorem splitDot_append_dot (a b : List Char) (h : '.' ∉ a) :
    splitDot (a ++ '.' :: b) = a :: splitDot b := by
  induction a with
  | nil => simp [splitDot]
  | cons c cs ih =>
    simp only [List.mem_cons, not_or] at h
    have hc : ¬ c = '.' := fun e => h.1 e.symm
    rw [List.cons_append, splitDot]
    simp [hc, ih h.2]

theorem splitDot_single (cs x : List Char) (h : splitDot cs = [x]) : x = cs ∧ '.' ∉ cs := by
  induction cs generalizing x with
  | nil =>
    simp [splitDot] at h
    simp [h]
  | cons c cs ih =>
    unfold splitDot at h
    by_cases hc : c = '.'
    · simp only [hc, if_true, List.cons.injEq] at h
      exact absurd h.2 (splitDot_ne_nil cs)
    · simp only [hc, if_false] at h
      cases hs : splitDot cs with
      | nil => exact absurd hs (splitDot_ne_nil cs)
      | cons part parts =>
        rw [hs] at h
        simp only [List.cons.injEq] at h
        obtain ⟨h1, h2⟩ := h
        subst h2
        obtain ⟨e, hno⟩ := ih part hs
        subst e
        refine ⟨h1.symm, ?_⟩
        simp only [List.mem_cons, not_or]
        exact ⟨fun e => hc e.symm, hno⟩

theorem splitDot_pair (cs a b : List Char) (h : splitDot cs = [a, b]) :
    cs = a ++ '.' :: b ∧ '.' ∉ a ∧ '.' ∉ b := by
  induction cs generalizing a with
  | nil => simp [splitDot] at h
  | cons c cs ih =>
    unfold splitDot at h
    by_cases hc : c = '.'
    · simp only [hc, if_true, List.cons.injEq] at h
      obtain ⟨h1, h2⟩ := h
      obtain ⟨e, hno⟩ := splitDot_single cs b h2
      subst h1
      subst e
      subst hc
      exact ⟨rfl, by simp, hno⟩
    · simp only [hc, if_false] at h
      cases hs : splitDot cs with
      | nil => exact absurd hs (splitDot_ne_nil cs)
      | cons part parts =>
        rw [hs] at h
        simp only [List.cons.injEq] at h
        obtain ⟨h1, h2⟩ := h
        subst h2
        subst h1
        obtain ⟨e, hna, hnb⟩ := ih part hs
        refine ⟨by rw [e]; rfl, ?_, hnb⟩
        simp only [List.mem_cons, not_or]
        exact ⟨fun e => hc e.symm, hna⟩

/-- The runner made for a type name without separator. -/
theorem newRunner_bare (p : Package) (typeName : String) (h : '.' ∉ typeName.data) :
    newRunner p typeName = some ⟨p.name, typeName, typeName, [], []⟩ := by
  unfold newRunner
  rw [splitDot_no_dot _ h]
  rfl

/-- The runner made for a type name with one separator. -/
theorem newRunner_qualified (p : Package) (a b : String) (ha : '.' ∉ a.data)
    (hb : '.' ∉ b.data) :
    newRunner p (a ++ "." ++ b) = some ⟨a, b, a ++ "." ++ b, [], []⟩ := by
  unfold newRunner
  have hd : (a ++ "." ++ b).data = a.data ++ '.' :: b.data := by
    simp [String.data_append]
  rw [hd, splitDot_append_dot _ _ ha, splitDot_no_dot _ hb]
  rfl

/-- What the runner made for an accepted type name holds. -/
theorem newRunner_some (p : Package) (typeName : String) (runner : FileRunner)
    (h : newRunner p typeName = some runner) :
    runner.repTypeName = typeName ∧
    (('.' ∉ typeName.data ∧ runner.pkgName = p.name ∧ runner.typeName = typeName) ∨
     ('.' ∈ typeName.data ∧ runner.pkgName ++ "." ++ runner.typeName = typeName ∧
        '.' ∉ runner.pkgName.data ∧ '.' ∉ runner.typeName.data)) := by
  unfold newRunner at h
  cases hs : splitDot typeName.data with
  | nil => exact absurd hs (splitDot_ne_nil _)
  | cons x rest =>
    rw [hs] at h
    cases rest with
    | nil =>
      simp only [List.map_cons, List.map_nil, Option.some.injEq] at h
      subst h
      obtain ⟨_, hno⟩ := splitDot_single _ _ hs
      exact ⟨rfl, Or.inl ⟨hno, rfl, rfl⟩⟩
    | cons y rest2 =>
      cases rest2 with
      | nil =>
        simp only [List.map_cons, List.map_nil, Option.some.injEq] at h
        subst h
        obtain ⟨e, hna, hnb⟩ := splitDot_pair _ _ _ hs
        refine ⟨rfl, Or.inr ⟨?_, ?_, hna, hnb⟩⟩
        · rw [e]
          simp
        · apply String.ext
          simp only [String.data_append]
          rw [e]
          simp
      | cons z rest3 => simp at h

/-- C10. When `inspect` succeeds, `RepTypeName` is the input string unchanged;
for a bare name `TypeName` is the input and `PkgName` the name of the primary
package; for a dotted name `PkgName` and `TypeName` are the parts before and
after the separator: neither holds a separator, and
`PkgName + "." + TypeName` is `RepTypeName`. -/
theorem inspect_result_names (p : Package) (typeName : String)
    (hok : (inspect p typeName).err = none) :
    (inspect p typeName).result.RepTypeName = typeName ∧
    ('.' ∉ typeName.data →
      (inspect p typeName).result.TypeName = typeName ∧
      (inspect p typeName).result.PkgName = p.name) ∧
    ('.' ∈ typeName.data →
      (inspect p typeName).result.PkgName ++ "." ++ (inspect p typeName).result.TypeName =
        (inspect p typeName).result.RepTypeName ∧
      '.' ∉ (inspect p typeName).result.PkgName.data ∧
      '.' ∉ (inspect p typeName).result.TypeName.data) := by
  obtain ⟨r, hr, _, _, _, hres, _⟩ := inspect_of_ok p typeName hok
  obtain ⟨h1, h2, h3, _⟩ := inspectFiles_header p p.files 0 r (newResult r) []
  have hP : (inspect p typeName).result.PkgName = r.pkgName := by rw [hres]; exact h1
  have hT : (inspect p typeName).result.TypeName = r.typeName := by rw [hres]; exact h2
  have hR : (inspect p typeName).result.RepTypeName = r.repTypeName := by rw [hres]; exact h3
  obtain ⟨hrep, hcase⟩ := newRunner_some p typeName r hr
  rw [hP, hT, hR, hrep]
  refine ⟨rfl, ?_, ?_⟩
  · intro hno
    rcases hcase with ⟨_, ha, hb⟩ | ⟨hdot, _⟩
    · exact ⟨hb, ha⟩
    · exact absurd hdot hno
  · intro hdot
    rcases hcase with ⟨hno, _⟩ | ⟨_, ha, hb, hc⟩
    · exact absurd hdot hno
    · exact ⟨ha, hb, hc⟩

/-- C10, on `testdata/dayofweek.go` with the bare name `DayOfWeek` and on the
imported package `pkg` with the dotted name `pkg.T`. -/
theorem inspect_result_names_witness :
    (inspect dayOfWeekPackage "DayOfWeek").result.RepTypeName = "DayOfWeek" ∧
    (inspect dayOfWeekPackage "DayOfWeek").result.TypeName = "DayOfWeek" ∧
    (inspect dayOfWeekPackage "DayOfWeek").result.PkgName = "testdata" ∧
    (inspect qualifiedPackage "pkg.T").result.PkgName ++ "." ++
      (inspect qualifiedPackage "pkg.T").result.TypeName =
        (inspect qualifiedPackage "pkg.T").result.RepTypeName :=
  have h1 := inspect_result_names dayOfWeekPackage "DayOfWeek" (by decide)
  have h2 := inspect_result_names qualifiedPackage "pkg.T" (by decide)
  ⟨h1.1, (h1.2.1 (by decide)).1, (h1.2.1 (by decide)).2, (h2.2.2 (by decide)).1⟩

/-! ## The files a qualified name selects (C9) -/

/-- Every position that the loop adds to `scanned` is the position of a file
owned by the requested package. -/
theorem inspectFiles_scanned (p : Package) (files : List File) (i : Nat) (runner : FileRunner)
    (result : Result) (scanned : List Nat) :
    ∀ j ∈ (inspectFiles p files i runner result scanned).2.2,
      j ∈ scanned ∨ ∃ f, files[j - i]? = some f ∧ i ≤ j ∧ f.pkg.name p = runner.pkgName := by
  induction files generalizing i runner result scanned with
  | nil =>
    intro j hj
    exact Or.inl (by simpa [inspectFiles] using hj)
  | cons file rest ih =>
    have step : ∀ (runner1 : FileRunner) (result1 : Result) (scanned1 : List Nat),
        runner1.pkgName = runner.pkgName →
        (∀ j ∈ scanned1, j ∈ scanned ∨
          (j = i ∧ file.pkg.name p = runner.pkgName)) →
        ∀ j ∈ (inspectFiles p rest (i + 1) runner1 result1 scanned1).2.2,
          j ∈ scanned ∨
            ∃ f, (file :: rest)[j - i]? = some f ∧ i ≤ j ∧ f.pkg.name p = runner.pkgName := by
      intro runner1 result1 scanned1 h1 h3 j hj
      rcases ih (i + 1) runner1 result1 scanned1 j hj with h | ⟨f, hf, hle, hn⟩
      · rcases h3 j h with h | ⟨hji, hname⟩
        · exact Or.inl h
        · refine Or.inr ⟨file, ?_, by omega, hname⟩
          rw [hji]
          simp
      · refine Or.inr ⟨f, ?_, by omega, by rw [← h1]; exact hn⟩
        have hidx : j - i = (j - (i + 1)) + 1 := by omega
        rw [hidx, List.getElem?_cons_succ]
        exact hf
    by_cases hp : runner.pkgName = file.pkg.name p
    · cases hf : file.file with
      | none =>
        rw [inspectFiles_skip_nil p file rest i runner result scanned hf]
        exact step runner result scanned rfl (fun j hj => Or.inl hj)
      | some astFile =>
        cases he : (InspectFile (genDecl (file.pkg.defs p)) astFile runner.ResetForLoop).HasError with
        | true =>
          rw [inspectFiles_stop p file rest i runner result scanned astFile hp hf he]
          intro j hj
          simp only [List.mem_append, List.mem_singleton] at hj
          rcases hj with hj | hj
          · exact Or.inl hj
          · refine Or.inr ⟨file, ?_, by omega, hp.symm⟩
            rw [hj]
            simp
        | false =>
          rw [inspectFiles_next p file rest i runner result scanned astFile hp hf he]
          refine step _ _ _ (InspectFile_request _ _ _).1 ?_
          intro j hj
          simp only [List.mem_append, List.mem_singleton] at hj
          rcases hj with hj | hj
          · exact Or.inl hj
          · exact Or.inr ⟨hj, hp.symm⟩
    · rw [inspectFiles_skip_pkg p file rest i runner result scanned hp]
      exact step runner result scanned rfl (fun j hj => Or.inl hj)

/-- The loop without error: the values are those of the entering result,
followed by what the scan of each file owned by the requested package added,
the files taken in order. -/
theorem inspectFiles_values (p : Package) (files : List File) (i : Nat) (runner : FileRunner)
    (result : Result) (scanned : List Nat)
    (h : (inspectFiles p files i runner result scanned).2.1 = none) :
    (inspectFiles p files i runner result scanned).1.Values =
      result.Values ++
        (files.filter (fun f => f.pkg.name p = runner.pkgName)).flatMap
          (fileValues p runner.ResetForLoop) := by
  induction files generalizing i runner result scanned with
  | nil => simp [inspectFiles]
  | cons file rest ih =>
    by_cases hp : runner.pkgName = file.pkg.name p
    · cases hf : file.file with
      | none =>
        rw [inspectFiles_skip_nil p file rest i runner result scanned hf] at h ⊢
        rw [ih _ _ _ _ h]
        simp [List.filter_cons, hp.symm, fileValues, hf]
      | some astFile =>
        cases he : (InspectFile (genDecl (file.pkg.defs p)) astFile runner.ResetForLoop).HasError with
        | true =>
          rw [inspectFiles_stop p file rest i runner result scanned astFile hp hf he] at h
          simp at h
        | false =>
          rw [inspectFiles_next p file rest i runner result scanned astFile hp hf he] at h ⊢
          rw [ih _ _ _ _ h, InspectFile_reset, (InspectFile_request _ _ _).1]
          simp [List.filter_cons, hp.symm, fileValues, hf]
    · rw [inspectFiles_skip_pkg p file rest i runner result scanned hp] at h ⊢
      rw [ih _ _ _ _ h]
      have hp2 : ¬ file.pkg.name p = runner.pkgName := fun e => hp e.symm
      simp [List.filter_cons, hp2]

/-- The positions that `inspect` scans, for an accepted type name. -/
theorem inspect_scanned (p : Package) (typeName : String) (runner : FileRunner)
    (hr : newRunner p typeName = some runner) :
    ∀ j ∈ (inspect p typeName).scanned,
      ∃ f, p.files[j]? = some f ∧ f.pkg.name p = runner.pkgName := by
  intro j hj
  by_cases hfiles : p.files = []
  · simp [inspect, hfiles] at hj
  · rw [(inspect_of_runner p typeName runner hr hfiles).1] at hj
    rcases inspectFiles_scanned p p.files 0 runner (newResult runner) [] j hj with h | h
    · simp at h
    · obtain ⟨f, hf, _, hn⟩ := h
      exact ⟨f, by simpa using hf, hn⟩

/-- C9. For a qualified type name `pkg.T`, every file that `inspect` scans is
owned by a package named `pkg`, and the values of a successful result are
exactly what the scans of the files owned by `pkg` added, in loaded order; when
the name of the primary package differs from `pkg`, no scanned file is a file
of the primary package, so that the values come from the other files only. -/
theorem qualified_name_selects_package (p : Package) (pkg T : String)
    (hpkg : '.' ∉ pkg.data) (hT : '.' ∉ T.data) :
    (∀ j ∈ (inspect p (pkg ++ "." ++ T)).scanned,
      ∃ f, p.files[j]? = some f ∧ f.pkg.name p = pkg ∧
        (p.name ≠ pkg → f.pkg ≠ PkgRef.primary)) ∧
    ((inspect p (pkg ++ "." ++ T)).err = none →
      (inspect p (pkg ++ "." ++ T)).result.Values =
        (p.files.filter (fun f => f.pkg.name p = pkg)).flatMap
          (fileValues p ⟨pkg, T, pkg ++ "." ++ T, [], []⟩)) ∧
    (p.name ≠ pkg → (inspect p (pkg ++ "." ++ T)).err = none →
      (inspect p (pkg ++ "." ++ T)).result.Values =
        (p.files.filter (fun f => f.pkg ≠ PkgRef.primary ∧ f.pkg.name p = pkg)).flatMap
          (fileValues p ⟨pkg, T, pkg ++ "." ++ T, [], []⟩)) := by
  have hr := newRunner_qualified p pkg T hpkg hT
  have hprim : p.name ≠ pkg → ∀ f : File, f.pkg.name p = pkg → f.pkg ≠ PkgRef.primary := by
    intro hne f hf hprim
    rw [hprim] at hf
    exact hne hf
  have hvals : (inspect p (pkg ++ "." ++ T)).err = none →
      (inspect p (pkg ++ "." ++ T)).result.Values =
        (p.files.filter (fun f => f.pkg.name p = pkg)).flatMap
          (fileValues p ⟨pkg, T, pkg ++ "." ++ T, [], []⟩) := by
    intro hok
    obtain ⟨r, hr1, _, hnone, _, hres, _⟩ := inspect_of_ok p _ hok
    rw [hr] at hr1
    cases hr1
    rw [hres]
    have := inspectFiles_values p p.files 0 _ _ [] hnone
    simpa [newResult, FileRunner.ResetForLoop] using this
  refine ⟨?_, hvals, ?_⟩
  · intro j hj
    obtain ⟨f, hf, hn⟩ := inspect_scanned p _ _ hr j hj
    exact ⟨f, hf, hn, fun hne => hprim hne f hn⟩
  · intro hne hok
    rw [hvals hok]
    congr 1
    apply List.filter_congr
    intro f _
    by_cases hf : f.pkg.name p = pkg
    · simp [hf, hprim hne f hf]
    · simp [hf]

/-- C9, on the primary package `main` that imports the package `pkg`, both
with a constant of a type `T`: for `pkg.T` only the file of `pkg`, at position
1, is scanned, and the only value is the constant `K` of `pkg`. -/
theorem qualified_name_selects_package_witness :
    (∀ j ∈ (inspect qualifiedPackage ("pkg" ++ "." ++ "T")).scanned,
      ∃ f, qualifiedPackage.files[j]? = some f ∧ f.pkg.name qualifiedPackage = "pkg" ∧
        (qualifiedPackage.name ≠ "pkg" → f.pkg ≠ PkgRef.primary)) ∧
    (inspect qualifiedPackage "pkg.T").scanned = [1] ∧
    (inspect qualifiedPackage "pkg.T").result.Values.map Value.Name = ["K"] :=
  ⟨(qualified_name_selects_package qualifiedPackage "pkg" "T" (by decide) (by decide)).1,
    by decide, by decide⟩

/-! ## More than one separator (C11) -/

theorem splitDot_length (cs : List Char) : (splitDot cs).length = cs.count '.' + 1 := by
  induction cs with
  | nil => rfl
  | cons c cs ih =>
    unfold splitDot
    by_cases hc : c = '.'
    · subst hc
      simp [ih]
    · simp only [hc, if_false]
      have hcount : (c :: cs).count '.' = cs.count '.' := by
        rw [List.count_cons]
        have : (c == '.') = false := by simpa using hc
        simp [this]
      rw [hcount, ← ih]
      cases hs : splitDot cs with
      | nil => exact absurd hs (splitDot_ne_nil cs)
      | cons part parts => simp

/-- A type name with more than one separator gives no runner. -/
theorem newRunner_none (p : Package) (typeName : String)
    (h : 2 ≤ typeName.data.count '.') : newRunner p typeName = none := by
  have hlen := splitDot_length typeName.data
  unfold newRunner
  cases hs : splitDot typeName.data with
  | nil => exact absurd hs (splitDot_ne_nil _)
  | cons x rest =>
    cases rest with
    | nil =>
      rw [hs] at hlen
      simp only [List.length_cons, List.length_nil] at hlen
      omega
    | cons y rest2 =>
      cases rest2 with
      | nil =>
        rw [hs] at hlen
        simp only [List.length_cons, List.length_nil] at hlen
        omega
      | cons z rest3 => simp

/-- C11. For every type name that holds more than one `.` separator, whatever
the loaded files, `inspect` returns an error (the error of line 173 when there
are files, the error of line 159 when there is none) and scans no file. -/
theorem inspect_rejects_two_separators (p : Package) (typeName : String)
    (h : 2 ≤ typeName.data.count '.') :
    (inspect p typeName).err ≠ none ∧
    (inspect p typeName).scanned = [] ∧
    (p.files ≠ [] → (inspect p typeName).err = some (.unexpectedTypeName typeName)) := by
  have hn := newRunner_none p typeName h
  unfold inspect
  by_cases hf : p.files.length = 0
  · rw [if_pos hf]
    refine ⟨by simp, rfl, ?_⟩
    intro hne
    exact absurd (List.length_eq_zero.mp hf) hne
  · rw [if_neg hf, hn]
    exact ⟨by simp, rfl, fun _ => rfl⟩

/-- C11, on `testdata/dayofweek.go` with the type name `a.b.c`. -/
theorem inspect_rejects_two_separators_witness :
    (inspect dayOfWeekPackage "a.b.c").err ≠ none ∧
    (inspect dayOfWeekPackage "a.b.c").scanned = [] ∧
    (dayOfWeekPackage.files ≠ [] →
      (inspect dayOfWeekPackage "a.b.c").err = some (.unexpectedTypeName "a.b.c")) :=
  inspect_rejects_two_separators dayOfWeekPackage "a.b.c" (by decide)

/-! ## Blank identifiers (C12) -/

/-- The loop over the names treats a list of names as the same list without
its blank identifiers. -/
theorem genDeclNames_skips_blank (defs : Defs) (names : List Ident) (r : FileRunner) :
    genDeclNames defs names r =
      genDeclNames defs (names.filter (fun n => n.Name ≠ "_")) r := by
  induction names generalizing r with
  | nil => rfl
  | cons n rest ih =>
    by_cases hb : n.Name = "_"
    · rw [List.filter_cons]
      simp only [hb, ne_eq, not_true_eq_false, decide_False, Bool.false_eq_true, if_false]
      rw [genDeclNames]
      simp only [hb, if_true]
      exact ih r
    · rw [List.filter_cons]
      simp only [hb, ne_eq, not_false_eq_true, decide_True, if_true]
      rw [genDeclNames, genDeclNames]
      simp only [hb, if_false]
      cases defs.lookup n.ptr with
      | none => rfl
      | some obj => exact ih _

/-- The loop over the names adds no value named `_`. -/
theorem genDeclNames_noBlank (defs : Defs) (names : List Ident) (r : FileRunner)
    (h : ∀ v ∈ r.values, v.Name ≠ "_") :
    ∀ v ∈ (genDeclNames defs names r).1.values, v.Name ≠ "_" := by
  induction names generalizing r with
  | nil => simpa [genDeclNames] using h
  | cons n rest ih =>
    unfold genDeclNames
    by_cases hb : n.Name = "_"
    · simp only [hb, if_true]
      exact ih r h
    · simp only [hb, if_false]
      cases defs.lookup n.ptr with
      | none => exact h
      | some obj =>
        apply ih
        intro v hv
        simp only [List.mem_append, List.mem_singleton] at hv
        rcases hv with hv | hv
        · exact h v hv
        · rw [hv]
          exact hb

theorem genDeclSpecs_noBlank (defs : Defs) (specs : List ValueSpec) (cur : String)
    (r : FileRunner) (h : ∀ v ∈ r.values, v.Name ≠ "_") :
    ∀ v ∈ (genDeclSpecs defs specs cur r).values, v.Name ≠ "_" := by
  induction specs generalizing cur r with
  | nil => simpa [genDeclSpecs] using h
  | cons s rest ih =>
    unfold genDeclSpecs
    cases nextTypeName s cur with
    | none => exact ih cur r h
    | some c =>
      simp only
      by_cases hc : c = r.typeName
      · simp only [hc, ne_eq, not_true_eq_false, if_false]
        have hn := genDeclNames_noBlank defs s.Names r h
        cases hres : genDeclNames defs s.Names r with
        | mk r1 flag =>
          rw [hres] at hn
          cases flag with
          | true => exact hn
          | false => exact ih _ r1 hn
      · simp only [ne_eq, hc, not_false_eq_true, if_true]
        exact ih c r h

mutual

/-- The walk of a node adds no value named `_`. -/
theorem Inspect_noBlank (defs : Defs) : ∀ (n : Node) (r : FileRunner),
    (∀ v ∈ r.values, v.Name ≠ "_") →
    ∀ v ∈ (Inspect (genDecl defs) n r).values, v.Name ≠ "_"
  | .constDecl specs, r, h => by
    simp only [Inspect, genDecl]
    exact genDeclSpecs_noBlank defs specs "" r h
  | .other cs, r, h => by
    simp only [Inspect, genDecl, if_true]
    exact InspectList_noBlank defs cs r h

/-- The same for the walk of a list of nodes. -/
theorem InspectList_noBlank (defs : Defs) : ∀ (ns : List Node) (r : FileRunner),
    (∀ v ∈ r.values, v.Name ≠ "_") →
    ∀ v ∈ (InspectList (genDecl defs) ns r).values, v.Name ≠ "_"
  | [], r, h => by
    simpa only [InspectList] using h
  | n :: ns, r, h => by
    simp only [InspectList]
    exact InspectList_noBlank defs ns _ (Inspect_noBlank defs n r h)

end

theorem inspectFiles_noBlank (p : Package) (files : List File) (i : Nat) (runner : FileRunner)
    (result : Result) (scanned : List Nat) (h : ∀ v ∈ result.Values, v.Name ≠ "_") :
    ∀ v ∈ (inspectFiles p files i runner result scanned).1.Values, v.Name ≠ "_" := by
  induction files generalizing i runner result scanned with
  | nil => simpa [inspectFiles] using h
  | cons file rest ih =>
    by_cases hp : runner.pkgName = file.pkg.name p
    · cases hf : file.file with
      | none =>
        rw [inspectFiles_skip_nil p file rest i runner result scanned hf]
        exact ih _ _ _ _ h
      | some astFile =>
        cases he : (InspectFile (genDecl (file.pkg.defs p)) astFile runner.ResetForLoop).HasError with
        | true =>
          rw [inspectFiles_stop p file rest i runner result scanned astFile hp hf he]
          exact h
        | false =>
          rw [inspectFiles_next p file rest i runner result scanned astFile hp hf he]
          apply ih
          intro v hv
          simp only [List.mem_append] at hv
          rcases hv with hv | hv
          · exact h v hv
          · exact InspectList_noBlank (file.pkg.defs p) astFile.Decls runner.ResetForLoop
              (by simp [FileRunner.ResetForLoop]) v hv
    · rw [inspectFiles_skip_pkg p file rest i runner result scanned hp]
      exact ih _ _ _ _ h

/-- C12. For every loaded file set and every type name, whether `inspect`
succeeds or not, no value of its result is named `_`. The loop over the names
of a spec skips the blank identifiers and goes on with the other names as if
the blank ones were not there; when the non-blank names of the spec resolve,
they are all emitted. -/
theorem no_blank_value (p : Package) (typeName : String) :
    (∀ v ∈ (inspect p typeName).result.Values, v.Name ≠ "_") ∧
    (∀ (defs : Defs) (names : List Ident) (r : FileRunner),
      genDeclNames defs names r =
        genDeclNames defs (names.filter (fun n => n.Name ≠ "_")) r) ∧
    (∀ (defs : Defs) (names : List Ident) (r : FileRunner),
      (∀ n ∈ names, n.Name ≠ "_" → defs.lookup n.ptr ≠ none) →
      (genDeclNames defs names r).1.values.map Value.Name =
        r.values.map Value.Name ++ (names.map Ident.Name).filter (fun n => n ≠ "_")) := by
  refine ⟨?_, genDeclNames_skips_blank, ?_⟩
  · unfold inspect
    by_cases hf : p.files.length = 0
    · simp [hf, Result.zero]
    · simp only [hf, if_false]
      cases hn : newRunner p typeName with
      | none => simp [Result.zero]
      | some runner =>
        simp only
        have hb := inspectFiles_noBlank p p.files 0 runner (newResult runner) []
          (by simp [newResult])
        rcases hl : inspectFiles p p.files 0 runner (newResult runner) [] with
          ⟨result, err, scanned⟩
        rw [hl] at hb
        cases err with
        | some e => exact hb
        | none =>
          simp only
          split
          · exact hb
          · exact hb
  · intro defs names r hres
    rw [genDeclNames_resolved defs names r hres]
    simp only [List.map_append, resolved_names defs names hres]
    rfl

/-- C12, on `package main; const ( _, A T = 0, 1 )` scanned for `T`: the
result holds `A` alone. -/
theorem no_blank_value_witness :
    (∀ v ∈ (inspect blankPackage "T").result.Values, v.Name ≠ "_") ∧
    (genDeclNames blankPackage.defs [⟨0, "_"⟩, ⟨1, "A"⟩] (sampleRunner "T")).1.values.map
      Value.Name = ["A"] ∧
    (inspect blankPackage "T").result.Values.map Value.Name = ["A"] :=
  ⟨(no_blank_value blankPackage "T").1,
    (no_blank_value blankPackage "T").2.2 blankPackage.defs [⟨0, "_"⟩, ⟨1, "A"⟩]
      (sampleRunner "T") (by decide),
    by decide⟩

/-! ## `Parse` (C13, C19) -/

/-- The loop of `Parse` when `inspect` succeeds for every name. -/
theorem parseTypes_ok (p : Package) (types : List String) (done : List Result)
    (inspected : List String) (h : ∀ t ∈ types, (inspect p t).err = none) :
    parseTypes p types done inspected =
      (none, done ++ types.map (fun t => (inspect p t).result), inspected ++ types) := by
  induction types generalizing done inspected with
  | nil => simp [parseTypes]
  | cons t rest ih =>
    rw [parseTypes, h t (List.mem_cons_self _ _)]
    simp only
    rw [ih _ _ (fun u hu => h u (List.mem_cons_of_mem _ hu))]
    simp

/-- The loop of `Parse` when `inspect` fails for the name after `pre` and for
none before. -/
theorem parseTypes_fail (p : Package) (pre : List String) (t : String) (post : List String)
    (e : InspectError) (done : List Result) (inspected : List String)
    (hpre : ∀ u ∈ pre, (inspect p u).err = none) (ht : (inspect p t).err = some e) :
    parseTypes p (pre ++ t :: post) done inspected =
      (some e,
        done ++ pre.map (fun u => (inspect p u).result)
          ++ List.replicate (post.length + 1) Result.zero,
        inspected ++ pre ++ [t]) := by
  induction pre generalizing done inspected with
  | nil =>
    rw [List.nil_append, parseTypes, ht]
    simp
  | cons u rest ih =>
    rw [List.cons_append, parseTypes, hpre u (List.mem_cons_self _ _)]
    simp only
    rw [ih _ _ (fun w hw => hpre w (List.mem_cons_of_mem _ hw))]
    simp

/-- The loop of `Parse` ends without error only when `inspect` succeeded for
every name. -/
theorem parseTypes_none (p : Package) (types : List String) (done : List Result)
    (inspected : List String) (h : (parseTypes p types done inspected).1 = none) :
    ∀ t ∈ types, (inspect p t).err = none := by
  induction types generalizing done inspected with
  | nil => simp
  | cons t rest ih =>
    rw [parseTypes] at h
    cases ht : (inspect p t).err with
    | some e =>
      rw [ht] at h
      simp at h
    | none =>
      rw [ht] at h
      simp only at h
      intro u hu
      rcases List.mem_cons.mp hu with rfl | hu
      · exact ht
      · exact ih _ _ h u hu

/-- A call of `inspect` that returns no error returns values. -/
theorem inspect_values_ne_nil (p : Package) (typeName : String)
    (hok : (inspect p typeName).err = none) : (inspect p typeName).result.Values ≠ [] := by
  obtain ⟨r, _, _, _, hv, hres, _⟩ := inspect_of_ok p typeName hok
  rw [hres]
  exact hv

/-- `Parse` once the package is loaded. -/
theorem Parse_of_package (loaded : Except String (List PrimaryPackage)) (types : List String)
    (p : Package) (hp : parsePackage loaded = some (.ok p)) :
    Parse loaded types =
      match parseTypes p types [] [] with
      | (some err, resultList, inspected) =>
        some ⟨some (.inspect err), resultList, p.name, inspected⟩
      | (none, resultList, inspected) =>
        if resultList.length = 0 then
          some ⟨some (.noTypes types), resultList, p.name, inspected⟩
        else some ⟨none, resultList, p.name, inspected⟩ := by
  unfold Parse
  rw [hp]

/-- C13. Once the package is loaded, `Parse` inspects the requested type names
in the order given and stops at the first that fails. It returns nil exactly
when the list of type names is not empty and `inspect` succeeds for every
name; `ResultList()` is then the list of the results of `inspect` on the
names, in order. When `inspect` fails for the name at an index and for none
before, `Parse` returns that error and the names inspected are those up to
that index. -/
theorem Parse_inspects_in_order (loaded : Except String (List PrimaryPackage))
    (types : List String) (p : Package) (hp : parsePackage loaded = some (.ok p)) :
    ∃ out, Parse loaded types = some out ∧
      (out.err = none ↔ (types ≠ [] ∧ ∀ t ∈ types, (inspect p t).err = none)) ∧
      (out.err = none →
        out.resultList = types.map (fun t => (inspect p t).result) ∧
        out.inspected = types) ∧
      (∀ (pre : List String) (t : String) (post : List String) (e : InspectError),
        types = pre ++ t :: post → (∀ u ∈ pre, (inspect p u).err = none) →
        (inspect p t).err = some e →
        out.err = some (.inspect e) ∧ out.inspected = pre ++ [t]) := by
  rw [Parse_of_package loaded types p hp]
  by_cases hall : ∀ t ∈ types, (inspect p t).err = none
  · rw [parseTypes_ok p types [] [] hall]
    simp only [List.nil_append, List.length_map]
    by_cases hnil : types.length = 0
    · rw [if_pos hnil]
      refine ⟨_, rfl, ?_, ?_, ?_⟩
      · simp [List.length_eq_zero.mp hnil]
      · intro h
        simp at h
      · intro pre t post e htypes _ _
        rw [htypes] at hnil
        simp at hnil
    · rw [if_neg hnil]
      refine ⟨_, rfl, ?_, ?_, ?_⟩
      · simp only [true_iff]
        exact ⟨fun h => hnil (by simp [h]), hall⟩
      · intro _
        exact ⟨rfl, rfl⟩
      · intro pre t post e htypes _ ht
        have := hall t (by rw [htypes]; simp)
        rw [this] at ht
        cases ht
  · have hex : ∃ pre t post e, types = pre ++ t :: post ∧
        (∀ u ∈ pre, (inspect p u).err = none) ∧ (inspect p t).err = some e := by
      clear hp
      induction types with
      | nil => simp at hall
      | cons t rest ih =>
        cases ht : (inspect p t).err with
        | some e => exact ⟨[], t, rest, e, rfl, by simp, ht⟩
        | none =>
          have hrest : ¬ ∀ u ∈ rest, (inspect p u).err = none := by
            intro h
            apply hall
            intro u hu
            rcases List.mem_cons.mp hu with rfl | hu
            · exact ht
            · exact h u hu
          obtain ⟨pre, t1, post, e, h1, h2, h3⟩ := ih hrest
          refine ⟨t :: pre, t1, post, e, by rw [h1]; rfl, ?_, h3⟩
          intro u hu
          rcases List.mem_cons.mp hu with rfl | hu
          · exact ht
          · exact h2 u hu
    obtain ⟨pre, t, post, e, htypes, hpre, ht⟩ := hex
    rw [htypes, parseTypes_fail p pre t post e [] [] hpre ht]
    refine ⟨_, rfl, ?_, ?_, ?_⟩
    · constructor
      · intro h
        cases h
      · intro h
        have := h.2 t (by simp)
        rw [this] at ht
        cases ht
    · intro h
      simp at h
    · intro pre1 t1 post1 e1 h1 hpre1 ht1
      have hsame : pre1 = pre ∧ t1 = t := by
        clear hall htypes
        induction pre generalizing pre1 with
        | nil =>
          cases pre1 with
          | nil =>
            simp only [List.nil_append, List.cons.injEq] at h1
            exact ⟨rfl, h1.1.symm⟩
          | cons u rest =>
            simp only [List.nil_append, List.cons_append, List.cons.injEq] at h1
            have := hpre1 u (List.mem_cons_self _ _)
            rw [← h1.1, ht] at this
            cases this
        | cons w pre ih =>
          cases pre1 with
          | nil =>
            simp only [List.nil_append, List.cons_append, List.cons.injEq] at h1
            have := hpre w (List.mem_cons_self _ _)
            rw [h1.1, ht1] at this
            cases this
          | cons u rest =>
            simp only [List.cons_append, List.cons.injEq] at h1
            obtain ⟨h2, h3⟩ := ih (fun x hx => hpre x (List.mem_cons_of_mem _ hx)) rest h1.2
              (fun x hx => hpre1 x (List.mem_cons_of_mem _ hx))
            exact ⟨by rw [h1.1, h2], h3⟩
      obtain ⟨hp1, ht1'⟩ := hsame
      subst hp1
      subst ht1'
      rw [ht] at ht1
      cases ht1
      simp

/-- C13, on `testdata/dayofweek.go`: the names `DayOfWeek`, `Month`,
`DayOfWeek` are inspected up to `Month`, whose error `Parse` returns; the name
`DayOfWeek` alone gives nil and one result. -/
theorem Parse_inspects_in_order_witness :
    (∃ out, Parse dayOfWeekLoaded ["DayOfWeek", "Month", "DayOfWeek"] = some out ∧
      out.err = some (.inspect (.noValues "Month")) ∧
      out.inspected = ["DayOfWeek", "Month"]) ∧
    (∃ out, Parse dayOfWeekLoaded ["DayOfWeek"] = some out ∧ out.err = none ∧
      out.resultList = [(inspect dayOfWeekPackage "DayOfWeek").result]) := by
  constructor
  · obtain ⟨out, h1, _, _, h4⟩ :=
      Parse_inspects_in_order dayOfWeekLoaded ["DayOfWeek", "Month", "DayOfWeek"]
        dayOfWeekPackage rfl
    have := h4 ["DayOfWeek"] "Month" ["DayOfWeek"] (.noValues "Month") rfl (by decide)
      (by decide)
    exact ⟨out, h1, this.1, this.2⟩
  · obtain ⟨out, h1, h2, h3, _⟩ :=
      Parse_inspects_in_order dayOfWeekLoaded ["DayOfWeek"] dayOfWeekPackage rfl
    have hok : out.err = none := h2.mpr ⟨by simp, by decide⟩
    exact ⟨out, h1, hok, (h3 hok).1⟩

/-- C19. Whenever `Parse` returns nil, `ResultList()` is not empty and every
result in it has values: the first result and its first value exist, and the
access `valuesList[0]` of `Generate` to the list that the parser hands over is
in range. -/
theorem Parse_ok_results_nonempty (loaded : Except String (List PrimaryPackage))
    (types : List String) (out : ParseOut)
    (h : Parse loaded types = some out) (hok : out.err = none) :
    out.resultList ≠ [] ∧
    (∀ r ∈ out.resultList, r.Values ≠ []) ∧
    (∃ r, out.resultList[0]? = some r ∧ ∃ v, r.Values[0]? = some v) ∧
    (∀ c : Config, templateData c out.basePkgName (ValuesList out) ≠ none) := by
  have key : out.resultList ≠ [] ∧ ∀ r ∈ out.resultList, r.Values ≠ [] := by
    unfold Parse at h
    cases hp : parsePackage loaded with
    | none =>
      rw [hp] at h
      cases h
    | some res =>
      rw [hp] at h
      cases res with
      | error e =>
        simp only [Option.some.injEq] at h
        rw [← h] at hok
        cases hok
      | ok p =>
        simp only at h
        rcases hl : parseTypes p types [] [] with ⟨err, resultList, inspected⟩
        have hnone := parseTypes_none p types [] []
        rw [hl] at h hnone
        cases err with
        | some e =>
          simp only [Option.some.injEq] at h
          rw [← h] at hok
          cases hok
        | none =>
          simp only at h
          have hall := hnone rfl
          have hres := parseTypes_ok p types [] [] hall
          rw [hl] at hres
          simp only [Prod.mk.injEq, true_and, List.nil_append] at hres
          by_cases hlen : resultList.length = 0
          · rw [if_pos hlen] at h
            simp only [Option.some.injEq] at h
            rw [← h] at hok
            cases hok
          · rw [if_neg hlen] at h
            simp only [Option.some.injEq] at h
            rw [← h]
            simp only
            refine ⟨fun h0 => hlen (by simp [h0]), ?_⟩
            intro r hr
            rw [hres.1] at hr
            obtain ⟨t, ht, rfl⟩ := List.mem_map.mp hr
            exact inspect_values_ne_nil p t (hall t ht)
  obtain ⟨hne, hvals⟩ := key
  refine ⟨hne, hvals, ?_, ?_⟩
  · cases hrl : out.resultList with
    | nil => exact absurd hrl hne
    | cons r rest =>
      refine ⟨r, by simp, ?_⟩
      have hr := hvals r (by rw [hrl]; simp)
      cases hv : r.Values with
      | nil => exact absurd hv hr
      | cons v vs => exact ⟨v, by simp⟩
  · intro c
    unfold ValuesList templateData
    cases hrl : out.resultList with
    | nil => exact absurd hrl hne
    | cons r rest => simp

/-- C19, on `testdata/dayofweek.go` with the type `DayOfWeek`. -/
theorem Parse_ok_results_nonempty_witness :
    ∃ out, Parse dayOfWeekLoaded ["DayOfWeek"] = some out ∧
      out.resultList ≠ [] ∧ (∀ r ∈ out.resultList, r.Values ≠ []) ∧
      (∃ r, out.resultList[0]? = some r ∧ ∃ v, r.Values[0]? = some v) ∧
      (∀ c : Config, templateData c out.basePkgName (ValuesList out) ≠ none) :=
  ⟨⟨none, [(inspect dayOfWeekPackage "DayOfWeek").result], "testdata", ["DayOfWeek"]⟩, rfl,
    Parse_ok_results_nonempty dayOfWeekLoaded ["DayOfWeek"] _ rfl rfl⟩

/-! ## `preprocess`: build tags (C14) and the output file (C17) -/

/-- The outcome of `preprocess` once the flags `-type` and `-template` are
given, the extra data are read and the directory is detected. -/
theorem preprocess_of_detected (env : Env) (fl : Flags) (extraData : List (String × String))
    (dir : String) (dirSpecified : Bool)
    (h1 : ¬ (fl.typeNames.length = 0 ∨ fl.templateFile.length = 0))
    (h2 : (if fl.templateData.length > 0 then extraDataOf (Split fl.templateData ';') []
           else .ok []) = .ok extraData)
    (h3 : detectDirectory env (dirOrFilesOf fl) = some (.ok (dir, dirSpecified))) :
    preprocess env fl =
      if dirSpecified = true ∧ (tagsOf fl).length ≠ 0 then some (.error .tagsOption)
      else
        some (.ok
          { types := Split fl.typeNames ',',
            tags := tagsOf fl,
            extraData := extraData,
            execArgsStr := " ".intercalate fl.osArgs,
            dirOrFiles := dirOrFilesOf fl,
            baseDir := dir,
            templateFile := env.Join dir fl.templateFile,
            outputFile := outputFileOf env fl (Split fl.typeNames ',') dir }) := by
  unfold preprocess
  rw [if_neg h1, h2]
  simp only [h3]

/-- Build tags with a directory end the process; build tags without a
directory are accepted. -/
theorem preprocess_tags (env : Env) (fl : Flags) (extraData : List (String × String))
    (dir : String) (dirSpecified : Bool)
    (h1 : ¬ (fl.typeNames.length = 0 ∨ fl.templateFile.length = 0))
    (h2 : (if fl.templateData.length > 0 then extraDataOf (Split fl.templateData ';') []
           else .ok []) = .ok extraData)
    (h3 : detectDirectory env (dirOrFilesOf fl) = some (.ok (dir, dirSpecified)))
    (h4 : (tagsOf fl).length ≠ 0) :
    (dirSpecified = true → preprocess env fl = some (.error .tagsOption)) ∧
    (dirSpecified = false →
      ∃ cfg, preprocess env fl = some (.ok cfg) ∧ cfg.tags = tagsOf fl) := by
  rw [preprocess_of_detected env fl extraData dir dirSpecified h1 h2 h3]
  constructor
  · intro hd
    rw [if_pos ⟨hd, h4⟩]
  · intro hd
    rw [if_neg (by simp [hd])]
    exact ⟨_, rfl, rfl⟩

/-- C14, at the failing input. With `-tags=foo` and the single directory
argument `testdata`, `detectDirectory` reports a directory and `preprocess`
ends the process with "-tags option applies only to directories, not when
files are specified"; with `-tags=foo` and the explicit file list `a.go b.go`,
no directory is reported and `preprocess` returns a configuration that holds
the tag. -/
theorem tags_rejected_for_directory :
    detectDirectory sampleEnv ["testdata"] = some (.ok ("testdata", true)) ∧
    preprocess sampleEnv tagsDirFlags = some (.error .tagsOption) ∧
    detectDirectory sampleEnv ["a.go", "b.go"] = some (.ok (".", false)) ∧
    (preprocess sampleEnv tagsFilesFlags).map (fun r => r.toOption.map Config.tags) =
      some (some ["foo"]) :=
  ⟨rfl, rfl, rfl, by decide⟩

/-- C17, at the failing input. Without `-output`, for the first type name
`DayOfWeek` and the file `testdata/dayofweek.go`, `preprocess` sets the output
file to `testdata/dayofweek_constconv.go`: the type name is lower-cased, and
the snake-cased name `day_of_week` of the flag's description is not made. -/
theorem default_output_is_lowercased :
    (preprocess sampleEnv sampleFlags).map (fun r => r.toOption.map Config.outputFile) =
      some (some "testdata/dayofweek_constconv.go") ∧
    (preprocess sampleEnv sampleFlags).map (fun r => r.toOption.map Config.outputFile) ≠
      some (some "testdata/day_of_week_constconv.go") := by
  decide

/-- Without `-output`, the output file is the join of the base directory and
the lower-cased text made of the first type name, its first `.` replaced by
`_`, and `_constconv.go`. -/
theorem outputFileOf_default (env : Env) (fl : Flags) (types : List String) (baseDir : String)
    (h : fl.outputFile = "") :
    outputFileOf env fl types baseDir =
      env.Join baseDir
        (env.ToLower (String.mk (replaceFirstDot (types.headD "").data) ++ "_constconv.go")) := by
  unfold outputFileOf
  rw [if_pos h]

/-! ## `Generator.format` (C15) and the template data (C16) -/

/-- C15. For every rendered buffer: when the source formatter succeeds,
`format` returns its output and a nil error; when the formatter fails,
`format` returns the rendered bytes unchanged together with an error. -/
theorem format_keeps_bytes (formatSource : Bytes → Except String Bytes) (buf : Bytes) :
    (∀ src, formatSource buf = .ok src → format formatSource buf = (src, none)) ∧
    (∀ err, formatSource buf = .error err →
      (format formatSource buf).1 = buf ∧ (format formatSource buf).2 ≠ none) := by
  constructor
  · intro src h
    unfold format
    rw [h]
  · intro err h
    unfold format
    rw [h]
    exact ⟨rfl, by simp⟩

/-- C15, on a formatter that accepts the buffer `[1]` and rejects `[2]`. -/
theorem format_keeps_bytes_witness :
    format sampleFormat [1] = ([1, 10], none) ∧
    (format sampleFormat [2]).1 = [2] ∧ (format sampleFormat [2]).2 ≠ none :=
  ⟨(format_keeps_bytes sampleFormat [1]).1 [1, 10] rfl,
    (format_keeps_bytes sampleFormat [2]).2 "expected declaration" rfl⟩

/-- C16, as stated, fails. For the result of `inspect` on `DayOfWeek` as the
one element of the list handed over, the template data have no key
`doNotEdit` and no key `extra`: the keys are `_doNotEdit` and `_extra`; and
the key `values` holds the first element of the list, here the first result
itself. -/
theorem template_keys_have_underscore :
    (templateData sampleConfig "testdata"
        [(inspect dayOfWeekPackage "DayOfWeek").result]).map (fun d => d.map Prod.fst) =
      some ["_doNotEdit", "_extra", "basePackageName", "values", "valuesList"] ∧
    (templateData sampleConfig "testdata"
        [(inspect dayOfWeekPackage "DayOfWeek").result]).bind
      (fun d => d.lookup "doNotEdit") = none ∧
    (templateData sampleConfig "testdata"
        [(inspect dayOfWeekPackage "DayOfWeek").result]).bind
      (fun d => d.lookup "extra") = none ∧
    (templateData sampleConfig "testdata"
        [(inspect dayOfWeekPackage "DayOfWeek").result]).bind
      (fun d => d.lookup "values") =
        some (.element (inspect dayOfWeekPackage "DayOfWeek").result) := by
  decide

/-- C16, as amended. The data that `Generate` passes to the template have
exactly the keys `_doNotEdit`, `_extra`, `basePackageName`, `values` and
`valuesList`: the banner with the arguments of the run, the extra data, the
name of the primary package, the first element of the list that the parser
hands over, and that whole list in order; the template is executed on these
data. -/
theorem template_data_keys {α : Type} (c : Config) (basePackageName : String)
    (first : α) (rest : List α) :
    ∃ data, templateData c basePackageName (first :: rest) = some data ∧
      data.map Prod.fst = ["_doNotEdit", "_extra", "basePackageName", "values", "valuesList"] ∧
      data.lookup "_doNotEdit" =
        some (.string ("// DO NOT EDIT.; Code generated by \"constconv " ++ c.execArgsStr ++ "\"")) ∧
      data.lookup "_extra" = some (.extraData c.extraData) ∧
      data.lookup "basePackageName" = some (.string basePackageName) ∧
      data.lookup "values" = some (.element first) ∧
      data.lookup "valuesList" = some (.list (first :: rest)) ∧
      (∀ (execute : List (String × TemplateValue α) → Except String Bytes)
        (formatSource : Bytes → Except String Bytes),
        Generate c execute formatSource basePackageName (first :: rest) =
          match execute data with
          | .error err => some (none, some ("template execution failed: " ++ err))
          | .ok buf => some (some (format formatSource buf).1, (format formatSource buf).2)) := by
  refine ⟨_, rfl, rfl, ?_, ?_, ?_, ?_, ?_, ?_⟩
  · simp [List.lookup]
  · simp [List.lookup]
  · simp [List.lookup]
  · simp [List.lookup]
  · simp [List.lookup]
  · intro execute formatSource
    rfl

/-! ## `preprocess`: the extra data (C18) -/

theorem splitFirst_no_sep (sep : Char) (cs : List Char) (h : sep ∉ cs) :
    splitFirst sep cs = [cs] := by
  induction cs with
  | nil => rfl
  | cons c cs ih =>
    simp only [List.mem_cons, not_or] at h
    unfold splitFirst
    have hc : ¬ c = sep := fun e => h.1 e.symm
    simp [hc, ih h.2]

theorem splitFirst_sep (sep : Char) (cs : List Char) (h : sep ∈ cs) :
    splitFirst sep cs =
      [cs.takeWhile (fun c => c ≠ sep), (cs.dropWhile (fun c => c ≠ sep)).drop 1] := by
  induction cs with
  | nil => simp at h
  | cons c cs ih =>
    unfold splitFirst
    by_cases hc : c = sep
    · simp [hc]
    · have hin : sep ∈ cs := by
        rcases List.mem_cons.mp h with h | h
        · exact absurd h.symm hc
        · exact h
      simp [hc, ih hin]

/-- The pieces into which a pair with `=` is cut are its key and its value. -/
theorem splitFirst_pair (kvPair : String) (h : '=' ∈ kvPair.data) :
    (splitFirst '=' kvPair.data).map String.mk = [pairKey kvPair, pairValue kvPair] := by
  rw [splitFirst_sep '=' kvPair.data h]
  rfl

/-- A pair without `=` is not cut. -/
theorem splitFirst_single (kvPair : String) (h : '=' ∉ kvPair.data) :
    (splitFirst '=' kvPair.data).map String.mk = [kvPair] := by
  rw [splitFirst_no_sep '=' kvPair.data h]
  rfl

theorem lookup_mapSet (m : List (String × String)) (key value k : String) :
    (mapSet m key value).lookup k = if k = key then some value else m.lookup k := by
  unfold mapSet
  by_cases hk : k = key
  · subst hk
    simp [List.lookup]
  · rw [if_neg hk]
    have hbeq : (k == key) = false := by simpa using hk
    rw [List.lookup_cons, hbeq]
    simp only
    induction m with
    | nil => rfl
    | cons kv rest ih =>
      by_cases h1 : kv.1 = key
      · have hne : (k == kv.1) = false := by
          rw [h1]
          exact hbeq
        rw [List.filter_cons]
        simp only [h1, ne_eq, not_true_eq_false, decide_False, Bool.false_eq_true, if_false]
        rw [ih]
        cases kv with
        | mk a b =>
          simp only at h1 hne
          rw [List.lookup_cons, hne]
      · rw [List.filter_cons]
        simp only [h1, ne_eq, not_false_eq_true, decide_True, if_true]
        cases kv with
        | mk a b =>
          rw [List.lookup_cons, List.lookup_cons, ih]

/-- The loop over the pairs, when every pair holds `=`: it ends with a map
that holds, for each key, the value of the last pair with this key, and
otherwise what the entering map held. -/
theorem extraDataOf_ok (pairs : List String) (m : List (String × String))
    (h : ∀ kvPair ∈ pairs, '=' ∈ kvPair.data) :
    ∃ m1, extraDataOf pairs m = .ok m1 ∧
      ∀ k, m1.lookup k =
        match pairs.reverse.find? (fun kvPair => pairKey kvPair = k) with
        | some kvPair => some (pairValue kvPair)
        | none => m.lookup k := by
  induction pairs generalizing m with
  | nil => exact ⟨m, rfl, fun k => rfl⟩
  | cons kvPair rest ih =>
    obtain ⟨m1, h1, h2⟩ := ih (mapSet m (pairKey kvPair) (pairValue kvPair))
      (fun x hx => h x (List.mem_cons_of_mem _ hx))
    refine ⟨m1, ?_, ?_⟩
    · rw [extraDataOf, splitFirst_pair kvPair (h kvPair (List.mem_cons_self _ _))]
      exact h1
    · intro k
      rw [h2 k, List.reverse_cons, List.find?_append]
      cases hfind : rest.reverse.find? (fun x => pairKey x = k) with
      | some x => simp
      | none =>
        simp only [Option.none_or]
        rw [lookup_mapSet]
        by_cases hk : pairKey kvPair = k
        · simp [List.find?, hk]
        · have hk2 : ¬ k = pairKey kvPair := fun e => hk e.symm
          simp [List.find?, hk, hk2]

/-- The loop over the pairs ends the process at the first pair without `=`. -/
theorem extraDataOf_fail (pre : List String) (bad : String) (post : List String)
    (m : List (String × String))
    (hpre : ∀ kvPair ∈ pre, '=' ∈ kvPair.data) (hbad : '=' ∉ bad.data) :
    extraDataOf (pre ++ bad :: post) m = .error (.invalidExtraData bad) := by
  induction pre generalizing m with
  | nil =>
    rw [List.nil_append, extraDataOf, splitFirst_single bad hbad]
  | cons kvPair rest ih =>
    rw [List.cons_append, extraDataOf,
      splitFirst_pair kvPair (hpre kvPair (List.mem_cons_self _ _))]
    exact ih _ (fun x hx => hpre x (List.mem_cons_of_mem _ hx))

/-- A list splits at its first element that fails a test. -/
theorem exists_first_without {α : Type} (P : α → Prop) (l : List α) (h : ∃ x ∈ l, ¬ P x) :
    ∃ pre bad post, l = pre ++ bad :: post ∧ (∀ x ∈ pre, P x) ∧ ¬ P bad := by
  induction l with
  | nil => simp at h
  | cons a rest ih =>
    by_cases ha : P a
    · have hrest : ∃ x ∈ rest, ¬ P x := by
        obtain ⟨x, hx, hnx⟩ := h
        rcases List.mem_cons.mp hx with rfl | hx
        · exact absurd ha hnx
        · exact ⟨x, hx, hnx⟩
      obtain ⟨pre, bad, post, h1, h2, h3⟩ := ih hrest
      refine ⟨a :: pre, bad, post, by rw [h1]; rfl, ?_, h3⟩
      intro x hx
      rcases List.mem_cons.mp hx with rfl | hx
      · exact ha
      · exact h2 x hx
    · exact ⟨[], a, rest, rfl, by simp, ha⟩

/-- C18. For every non-empty `-data` string, `preprocess` splits it on `;` into
pairs and each pair on its first `=` into key and value. When it returns a
configuration, every pair held `=` and the extra data hold, for each key, the
value of the last pair with this key, and nothing for any other key (a value
may hold `=`). When the flags `-type` and `-template` are given and a pair
holds no `=`, `preprocess` ends the process with "invalid extraData" on the
first such pair. -/
theorem extra_data_of_flag (env : Env) (fl : Flags) (hdata : fl.templateData.length > 0) :
    (∀ cfg, preprocess env fl = some (.ok cfg) →
      (∀ kvPair ∈ Split fl.templateData ';', '=' ∈ kvPair.data) ∧
      ∀ k, cfg.extraData.lookup k = expectedExtraData fl.templateData k) ∧
    (¬ (fl.typeNames.length = 0 ∨ fl.templateFile.length = 0) →
      (∃ kvPair ∈ Split fl.templateData ';', '=' ∉ kvPair.data) →
      ∃ pre bad post, Split fl.templateData ';' = pre ++ bad :: post ∧
        (∀ kvPair ∈ pre, '=' ∈ kvPair.data) ∧ '=' ∉ bad.data ∧
        preprocess env fl = some (.error (.invalidExtraData bad))) := by
  have hbad : ∀ pre bad post, Split fl.templateData ';' = pre ++ bad :: post →
      (∀ kvPair ∈ pre, '=' ∈ kvPair.data) → '=' ∉ bad.data →
      ¬ (fl.typeNames.length = 0 ∨ fl.templateFile.length = 0) →
      preprocess env fl = some (.error (.invalidExtraData bad)) := by
    intro pre bad post hsplit hpre hb hflags
    unfold preprocess
    rw [if_neg hflags, if_pos hdata, hsplit, extraDataOf_fail pre bad post [] hpre hb]
  constructor
  · intro cfg hcfg
    by_cases hflags : fl.typeNames.length = 0 ∨ fl.templateFile.length = 0
    · unfold preprocess at hcfg
      rw [if_pos hflags] at hcfg
      cases hcfg
    · have hall : ∀ kvPair ∈ Split fl.templateData ';', '=' ∈ kvPair.data := by
        by_contra hex
        have hex2 : ∃ x ∈ Split fl.templateData ';', ¬ '=' ∈ x.data := by
          simpa using hex
        obtain ⟨pre, bad, post, h1, h2, h3⟩ :=
          exists_first_without (fun x : String => '=' ∈ x.data) _ hex2
        rw [hbad pre bad post h1 h2 h3 hflags] at hcfg
        cases hcfg
      refine ⟨hall, ?_⟩
      obtain ⟨m1, hm1, hlook⟩ := extraDataOf_ok (Split fl.templateData ';') [] hall
      unfold preprocess at hcfg
      rw [if_neg hflags, if_pos hdata, hm1] at hcfg
      simp only at hcfg
      have hext : cfg.extraData = m1 := by
        cases hd : detectDirectory env (dirOrFilesOf fl) with
        | none =>
          rw [hd] at hcfg
          cases hcfg
        | some res =>
          rw [hd] at hcfg
          cases res with
          | error e =>
            simp only at hcfg
            cases hcfg
          | ok pr =>
            cases pr with
            | mk dir dirSpecified =>
              simp only at hcfg
              split at hcfg
              · cases hcfg
              · simp only [Option.some.injEq, Except.ok.injEq] at hcfg
                rw [← hcfg]
      intro k
      rw [hext, hlook k]
      unfold expectedExtraData
      cases (Split fl.templateData ';').reverse.find? (fun kvPair => pairKey kvPair = k) with
      | some x => simp
      | none => simp [List.lookup]
  · intro hflags hex
    have hex2 : ∃ x ∈ Split fl.templateData ';', ¬ '=' ∈ x.data := hex
    obtain ⟨pre, bad, post, h1, h2, h3⟩ :=
      exists_first_without (fun x : String => '=' ∈ x.data) _ hex2
    exact ⟨pre, bad, post, h1, h2, h3, hbad pre bad post h1 h2 h3 hflags⟩

/-- C18, on `-data="typename=Foo;prefix=Bar"`: the extra data hold `Foo` for
`typename`, `Bar` for `prefix`, and nothing else. -/
theorem extra_data_of_flag_witness :
    ∃ cfg, preprocess sampleEnv dataFlags = some (.ok cfg) ∧
      cfg.extraData.lookup "typename" = some "Foo" ∧
      cfg.extraData.lookup "prefix" = some "Bar" ∧
      cfg.extraData.lookup "package" = none ∧
      cfg.extraData = [("prefix", "Bar"), ("typename", "Foo")] :=
  have h := (extra_data_of_flag sampleEnv dataFlags (by decide)).1
    { types := ["DayOfWeek"], tags := [],
      extraData := [("prefix", "Bar"), ("typename", "Foo")],
      execArgsStr :=
        "-type=DayOfWeek -template=dayofweek.tmpl -data=typename=Foo;prefix=Bar testdata/dayofweek.go",
      dirOrFiles := ["testdata/dayofweek.go"], baseDir := "testdata",
      templateFile := "testdata/dayofweek.tmpl",
      outputFile := "testdata/dayofweek_constconv.go" } rfl
  ⟨_, rfl, (h.2 "typename").trans (by decide), (h.2 "prefix").trans (by decide),
    (h.2 "package").trans (by decide), rfl⟩

end Constconv
